import Mathlib

/-!
Verification of the shard persistence/indexing layer
(quarkchain/cluster/shard_db_operator.py).

The development is a shallow embedding: byte strings are lists of
naturals below 256, the ordered key-value store is an association list
of key/value pairs, Python dicts and sets are association lists with
insertion-order semantics, and the stateful methods of
ShardDbOperator/TransactionHistoryMixin become explicit state-passing
functions.  Serialized payloads produced by the external codec
(quarkchain.core) are opaque to this component, so stored values are a
tagged sum with one constructor per payload kind; the codec is the
identity embedding into that sum, which is faithful because the real
codec is injective and each key namespace holds one payload kind.
-/

/-- Byte strings: lists of naturals; a well-formed byte has value < 256. -/
abbrev Bytes := List Nat

/-- All entries of the list are genuine bytes (< 256). -/
def validBytes (l : Bytes) : Prop := ∀ b ∈ l, b < 256

instance (l : Bytes) : Decidable (validBytes l) := by
  unfold validBytes; infer_instance

/-- Big-endian interpretation of a byte string as an unsigned integer,
as done by Python int.from_bytes(-, "big"). -/
def bytesToNat : Bytes → Nat
  | [] => 0
  | b :: t => b * 256 ^ t.length + bytesToNat t

/-- Big-endian encoding of an unsigned integer into a fixed number of
bytes, as done by Python n.to_bytes(len, "big").  Python raises
OverflowError when n does not fit; every use in the source stays below
the bound, and the model truncates modulo 256 ^ len there. -/
def natToBytes (n : Nat) : Nat → Bytes
  | 0 => []
  | l + 1 => natToBytes (n / 256) l ++ [n % 256]

/-- Strict byte-lexicographic order on byte strings (the order of the
underlying key-value store's keys). -/
abbrev bytesLt (a b : Bytes) : Prop := List.Lex (· < ·) a b

/-- Decimal ASCII digits of a natural number, little helper for the
Python byte-format b"mi_%d" (auxiliary, fuel-driven). -/
def decimalAsciiAux : Nat → Nat → Bytes
  | 0, _ => []
  | fuel + 1, n => if n < 10 then [48 + n] else decimalAsciiAux fuel (n / 10) ++ [48 + n % 10]

/-- Decimal ASCII representation of a natural number, e.g. 12 becomes
[49, 50] ("12"). -/
def decimalAscii (n : Nat) : Bytes := decimalAsciiAux (n + 1) n

/-! ### Data model

Entities of quarkchain.core as used by shard_db_operator.py.  Only the
fields this component reads are modelled; get_hash() is the opaque
content hash of the serialized form, modelled as an explicit field. -/

/-- Header of a minor (shard-chain) block; hashVal models get_hash(). -/
structure MinorBlockHeader where
  height : Nat
  hashPrevMinorBlock : Bytes
  createTime : Nat
  hashVal : Bytes
deriving DecidableEq

/-- Per-block auxiliary metadata (meta). -/
structure MinorBlockMeta where
  hashEvmStateRoot : Bytes
deriving DecidableEq

/-- Modelled from the spec: the EVM transaction view tx.tx.to_evm_tx()
(quarkchain.core / quarkchain.evm, not under src/): sender bytes,
recipient bytes (empty for contract creation; field toAddr models
evm_tx.to) and the two full shard keys. -/
structure EvmTx where
  sender : Bytes
  fromFullShardKey : Nat
  toAddr : Bytes
  toFullShardKey : Nat
deriving DecidableEq

/-- A shard transaction; hashVal models get_hash(), evm models
tx.to_evm_tx(). -/
structure Transaction where
  hashVal : Bytes
  evm : EvmTx
deriving DecidableEq

/-- A minor block: header, metadata and transaction list. -/
structure MinorBlock where
  header : MinorBlockHeader
  meta : MinorBlockMeta
  txList : List Transaction
deriving DecidableEq

/-- Header of a root-chain block; hashVal models get_hash(). -/
structure RootBlockHeader where
  height : Nat
  hashPrevBlock : Bytes
  hashVal : Bytes
deriving DecidableEq

/-- A root block (only its header is used here). -/
structure RootBlock where
  header : RootBlockHeader
deriving DecidableEq

/-- Modelled from the spec: one CrossShardTransactionDeposit record
(quarkchain.core, not under src/); only identity matters here. -/
structure CrossShardDeposit where
  txHash : Bytes
  toRecipient : Bytes
  toFullShardKey : Nat
  value : Nat
deriving DecidableEq

/-- Modelled from the spec: quarkchain.core.Address (not under src/),
a (recipient, full-shard-key) pair. -/
structure Address where
  recipient : Bytes
  fullShardKey : Nat
deriving DecidableEq

/-- Modelled from the spec: Address.serialize() (quarkchain.core, not
under src/): fixed-width recipient bytes followed by the 4-byte
big-endian full shard key; 24 bytes in total for the 20-byte recipient
used throughout the source. -/
def addressSerialize (a : Address) : Bytes :=
  a.recipient ++ natToBytes a.fullShardKey 4

/-- Stored values.  The real store holds byte strings; serialization
of blocks and deposit lists is an external injective codec
(quarkchain.core), modelled as a tagged sum with the codec as the
identity embedding. -/
inductive Val where
  | bytes (bs : Bytes)
  | mblock (b : MinorBlock)
  | rblock (b : RootBlock)
  | xlist (l : List CrossShardDeposit)
deriving DecidableEq

/-! ### The ordered key-value store and Python dict/set models -/

/-- Point lookup in the key-value store (db.get(key, None)). -/
def dbGet (db : List (Bytes × Val)) (k : Bytes) : Option Val :=
  match db.find? (fun kv => decide (kv.1 = k)) with
  | some kv => some kv.2
  | none => none

/-- Key deletion in the key-value store (db.remove(key)). -/
def dbRemove (db : List (Bytes × Val)) (k : Bytes) : List (Bytes × Val) :=
  db.filter (fun kv => decide (kv.1 ≠ k))

/-- Key write in the key-value store (db.put(key, value)); overwrites
any existing entry for the key. -/
def dbPut (db : List (Bytes × Val)) (k : Bytes) (v : Val) : List (Bytes × Val) :=
  (k, v) :: dbRemove db k

/-- Membership test in the key-value store (key in db). -/
def dbContains (db : List (Bytes × Val)) (k : Bytes) : Bool :=
  (dbGet db k).isSome

/-- Modelled from the spec: db.reversed_range_iter(start, end) of the
external ordered store: the (key, value) pairs whose key lies in the
range (end, start] -- start inclusive, end exclusive -- in descending
byte-lexicographic key order. -/
def reversedRangeIter (db : List (Bytes × Val)) (start stop : Bytes) :
    List (Bytes × Val) :=
  List.insertionSort (fun a b => ¬ bytesLt a.1 b.1)
    (db.filter (fun kv => decide (bytesLt stop kv.1) && !decide (bytesLt start kv.1)))

/-- Python dict lookup d.get(k, None). -/
def dictGet {K V : Type} [DecidableEq K] (d : List (K × V)) (k : K) : Option V :=
  match d.find? (fun kv => decide (kv.1 = k)) with
  | some kv => some kv.2
  | none => none

/-- Python dict assignment d[k] = v: replaces in place, or appends a
new key (insertion order, as in Python 3.7+). -/
def dictInsert {K V : Type} [DecidableEq K] (d : List (K × V)) (k : K) (v : V) :
    List (K × V) :=
  if (dictGet d k).isSome then
    d.map (fun kv => if kv.1 = k then (k, v) else kv)
  else
    d ++ [(k, v)]

/-- Python set.add on a deduplicated list model of a set. -/
def setInsert {V : Type} [DecidableEq V] (s : List V) (x : V) : List V :=
  if x ∈ s then s else s ++ [x]

/-- d.setdefault(h, set()).add(x) on the height-to-hash-set dict. -/
def heightSetAdd (d : List (Nat × List Bytes)) (h : Nat) (x : Bytes) :
    List (Nat × List Bytes) :=
  match dictGet d h with
  | some s => dictInsert d h (setInsert s x)
  | none => d ++ [(h, setInsert [] x)]

/-! ### Key namespaces (ASCII tags of the key schema) -/

/-- b"addr_". -/
def tagAddr : Bytes := [97, 100, 100, 114, 95]

/-- b"xr_". -/
def tagXr : Bytes := [120, 114, 95]

/-- b"rblock_". -/
def tagRblock : Bytes := [114, 98, 108, 111, 99, 107, 95]

/-- b"r_last_m". -/
def tagRLastM : Bytes := [114, 95, 108, 97, 115, 116, 95, 109]

/-- b"genesis_". -/
def tagGenesis : Bytes := [103, 101, 110, 101, 115, 105, 115, 95]

/-- b"mblock_". -/
def tagMblock : Bytes := [109, 98, 108, 111, 99, 107, 95]

/-- b"tx_count_". -/
def tagTxCount : Bytes := [116, 120, 95, 99, 111, 117, 110, 116, 95]

/-- b"mi_". -/
def tagMi : Bytes := [109, 105, 95]

/-- b"txindex_". -/
def tagTxIndex : Bytes := [116, 120, 105, 110, 100, 101, 120, 95]

/-- b"xShard_". -/
def tagXShard : Bytes := [120, 83, 104, 97, 114, 100, 95]

/-- The positional-index key b"mi_%d" % height (decimal ASCII). -/
def miKey (height : Nat) : Bytes := tagMi ++ decimalAscii height

/-! ### Operator state

ShardDbOperator.__init__: the underlying store handle, the four
in-memory pools (all empty at construction) and the configuration and
branch collaborators that the methods consult.  x_shard_set is unused
by every method (its only write is commented out in the source) and is
omitted. -/

/-- The state of one ShardDbOperator together with its environment:
enableTxHistory models env.cluster_config.ENABLE_TRANSACTION_HISTORY,
branchContains models branch.is_in_branch (quarkchain.core, not under
src/), and the three remaining numbers model the recovery
configuration values of env.quark_chain_config. -/
structure DbState where
  db : List (Bytes × Val)
  mHeaderPool : List (Bytes × MinorBlockHeader)
  mMetaPool : List (Bytes × MinorBlockMeta)
  rHeaderPool : List (Bytes × RootBlockHeader)
  heightToMinorBlockHashes : List (Nat × List Bytes)
  enableTxHistory : Bool
  branchContains : Nat → Bool
  maxRootBlocksInMemory : Nat
  maxMinorBlocksInMemory : Nat
  genesisRootHeight : Nat

/-- ShardDbOperator.__init__(db, env, branch): fresh pools over a
given store and environment. -/
def mkOperator (db : List (Bytes × Val)) (enableTxHistory : Bool)
    (branchContains : Nat → Bool) (maxRoot maxMinor genesisHeight : Nat) : DbState :=
  { db := db
    mHeaderPool := []
    mMetaPool := []
    rHeaderPool := []
    heightToMinorBlockHashes := []
    enableTxHistory := enableTxHistory
    branchContains := branchContains
    maxRootBlocksInMemory := maxRoot
    maxMinorBlocksInMemory := maxMinor
    genesisRootHeight := genesisHeight }

/-! ### TransactionHistoryMixin -/

/-- TransactionHistoryMixin.__encode_address_transaction_key. -/
def encodeAddressTransactionKey (address : Address) (height index : Nat)
    (crossShard : Bool) : Bytes :=
  let crossShardByte : Bytes := if crossShard then [0] else [1]
  tagAddr ++ addressSerialize address ++ natToBytes height 4 ++ crossShardByte
    ++ natToBytes index 4

/-- put_confirmed_cross_shard_transaction_deposit_list: stores the
confirmed deposit list under b"xr_" + hash (no-op when the history
feature flag is off). -/
def put_confirmed_cross_shard_transaction_deposit_list (st : DbState)
    (minorBlockHash : Bytes) (deposits : List CrossShardDeposit) : DbState :=
  if st.enableTxHistory = false then st
  else { st with db := dbPut st.db (tagXr ++ minorBlockHash) (Val.xlist deposits) }

/-- __update_transaction_history_index: writes (or removes, through
func) the sender entry and, when the recipient exists and is in this
branch, the recipient entry. -/
def update_transaction_history_index (st : DbState) (tx : Transaction)
    (blockHeight index : Nat) (func : DbState → Bytes → DbState) : DbState :=
  let evmTx := tx.evm
  let addr : Address := ⟨evmTx.sender, evmTx.fromFullShardKey⟩
  let key := encodeAddressTransactionKey addr blockHeight index false
  let st1 := func st key
  if evmTx.toAddr ≠ [] ∧ st1.branchContains evmTx.toFullShardKey = true then
    func st1
      (encodeAddressTransactionKey ⟨evmTx.toAddr, evmTx.toFullShardKey⟩ blockHeight index false)
  else st1

/-- put_transaction_history_index (feature-flagged). -/
def put_transaction_history_index (st : DbState) (tx : Transaction)
    (blockHeight index : Nat) : DbState :=
  if st.enableTxHistory = false then st
  else update_transaction_history_index st tx blockHeight index
    (fun s k => { s with db := dbPut s.db k (Val.bytes []) })

/-- remove_transaction_history_index (feature-flagged). -/
def remove_transaction_history_index (st : DbState) (tx : Transaction)
    (blockHeight index : Nat) : DbState :=
  if st.enableTxHistory = false then st
  else update_transaction_history_index st tx blockHeight index
    (fun s k => { s with db := dbRemove s.db k })

/-- One row produced by get_transactions_by_address.  The
TransactionDetail payload of the source is assembled from externally
deserialized blocks and receipts (quarkchain.core, outside this
component); the model records the row's identifying data: the index
key it was produced from and the height / cross-shard flag / index
decoded from that key exactly as the source decodes them. -/
structure TransactionDetail where
  key : Bytes
  height : Nat
  crossShard : Bool
  index : Nat
deriving DecidableEq

/-- The scan loop of get_transactions_by_address: decrement limit,
stop when it goes negative, otherwise decode the key, emit a row and
update the continuation cursor to int(k) - 1 re-encoded at len(k)
bytes.  (In Python int(k) - 1 could only be negative for an all-zero
key, which can never lie above the b"addr_"-led lower bound; natural
subtraction agrees on every reachable input.) -/
def getTransactionsByAddressLoop :
    List (Bytes × Val) → Int → List TransactionDetail → Bytes →
    List TransactionDetail × Bytes
  | [], _, txList, next => (txList, next)
  | (k, _) :: rest, limit, txList, next =>
    if limit - 1 < 0 then (txList, next)
    else
      let height := bytesToNat ((k.drop (5 + 24)).take 4)
      let crossShard := k.getD (5 + 24 + 4) 0 = 0
      let index := bytesToNat (k.drop (5 + 24 + 4 + 1))
      getTransactionsByAddressLoop rest (limit - 1)
        (txList ++ [⟨k, height, decide crossShard, index⟩])
        (natToBytes (bytesToNat k - 1) k.length)

/-- The local variable end = b"addr_" + address.serialize() of
get_transactions_by_address: exclusive lower bound of the scan. -/
def addressTxKeyEnd (address : Address) : Bytes :=
  tagAddr ++ addressSerialize address

/-- The local variable original_start = (int(end) + 1) re-encoded at
len(end) bytes: default (inclusive) upper bound of the scan. -/
def addressTxOriginalStart (address : Address) : Bytes :=
  natToBytes (bytesToNat (addressTxKeyEnd address) + 1) (addressTxKeyEnd address).length

/-- The cursor reset of get_transactions_by_address: an empty or
too-high start falls back to original_start. -/
def addressTxEffectiveStart (address : Address) (start : Bytes) : Bytes :=
  if start = [] ∨ bytesLt (addressTxOriginalStart address) start then
    addressTxOriginalStart address
  else start

/-- get_transactions_by_address(address, start, limit): empty page and
empty cursor when the feature flag is off; otherwise a reverse range
scan from the effective start down to (but excluding) the address key
lower bound, with next initialized to that lower bound. -/
def get_transactions_by_address (st : DbState) (address : Address)
    (start : Bytes) (limit : Int) : List TransactionDetail × Bytes :=
  if st.enableTxHistory = false then ([], [])
  else
    getTransactionsByAddressLoop
      (reversedRangeIter st.db (addressTxEffectiveStart address start) (addressTxKeyEnd address))
      limit [] (addressTxKeyEnd address)

/-! ### ShardDbOperator: recovery -/

/-- The root-chain half of recover_state: while the root header pool
is below max_root_blocks_in_memory, load the stored root block at the
current hash (a missing block is fatal: none), cache its header, stop
at the configured genesis root height, else follow hash_prev_block.
The Python loop is unbounded; fuel bounds its unfolding and fuel
exhaustion also yields none. -/
def recoverRootLoop : Nat → DbState → Bytes → Option DbState
  | 0, _, _ => none
  | fuel + 1, st, rHash =>
    if st.rHeaderPool.length < st.maxRootBlocksInMemory then
      match dbGet st.db (tagRblock ++ rHash) with
      | some (Val.rblock block) =>
        let st1 := { st with rHeaderPool := dictInsert st.rHeaderPool rHash block.header }
        if block.header.height ≤ st1.genesisRootHeight then some st1
        else recoverRootLoop fuel st1 block.header.hashPrevBlock
      | _ => none
    else some st

/-- The minor-chain half of recover_state: while the minor header pool
is below max_minor_blocks_in_memory, load the stored minor block at
the current hash (missing block fatal: none), cache its header and
meta, stop at height ≤ 0, else follow hash_prev_minor_block.  Fuel as
in recoverRootLoop. -/
def recoverMinorLoop : Nat → DbState → Bytes → Option DbState
  | 0, _, _ => none
  | fuel + 1, st, mHash =>
    if st.mHeaderPool.length < st.maxMinorBlocksInMemory then
      match dbGet st.db (tagMblock ++ mHash) with
      | some (Val.mblock block) =>
        let st1 := { st with
          mHeaderPool := dictInsert st.mHeaderPool mHash block.header
          mMetaPool := dictInsert st.mMetaPool mHash block.meta }
        if block.header.height ≤ 0 then some st1
        else recoverMinorLoop fuel st1 block.header.hashPrevMinorBlock
      | _ => none
    else some st

/-- recover_state(r_header, m_header): the root walk from the root
head's hash followed by the minor walk from the minor head's hash
(the closing Logger.info call has no observable effect and is not
modelled). -/
def recover_state (fuel : Nat) (st : DbState) (rHeader : RootBlockHeader)
    (mHeader : MinorBlockHeader) : Option DbState :=
  match recoverRootLoop fuel st rHeader.hashVal with
  | none => none
  | some st1 => recoverMinorLoop fuel st1 mHeader.hashVal

/-! ### ShardDbOperator: root block operations -/

/-- put_root_block(root_block, r_minor_header, root_block_hash):
caches the header, stores the block and the last-confirmed-minor
pointer (empty marker when no header is supplied). -/
def put_root_block (st : DbState) (rootBlock : RootBlock)
    (rMinorHeader : Option MinorBlockHeader) (rootBlockHash : Option Bytes) : DbState :=
  let rbHash := match rootBlockHash with
    | none => rootBlock.header.hashVal
    | some h => h
  let st1 := { st with rHeaderPool := dictInsert st.rHeaderPool rbHash rootBlock.header }
  let st2 := { st1 with db := dbPut st1.db (tagRblock ++ rbHash) (Val.rblock rootBlock) }
  let rMinorHeaderHash := match rMinorHeader with
    | some h => h.hashVal
    | none => []
  { st2 with db := dbPut st2.db (tagRLastM ++ rbHash) (Val.bytes rMinorHeaderHash) }

/-- get_root_block_by_hash(h): store lookup, caching the header on a
hit ("if not raw_block" also treats an empty stored record as
absent; a non-root payload could not deserialize and has no
well-formed model, mapped to the absent result). -/
def get_root_block_by_hash (st : DbState) (h : Bytes) : Option RootBlock × DbState :=
  match dbGet st.db (tagRblock ++ h) with
  | some (Val.rblock block) =>
    (some block, { st with rHeaderPool := dictInsert st.rHeaderPool h block.header })
  | _ => (none, st)

/-- get_root_block_header_by_hash(h): pool first, store on a miss,
re-caching the loaded header. -/
def get_root_block_header_by_hash (st : DbState) (h : Bytes) :
    Option RootBlockHeader × DbState :=
  match dictGet st.rHeaderPool h with
  | some header => (some header, st)
  | none =>
    match get_root_block_by_hash st h with
    | (some block, st1) =>
      (some block.header,
        { st1 with rHeaderPool := dictInsert st1.rHeaderPool h block.header })
    | (none, st1) => (none, st1)

/-! ### ShardDbOperator: minor block operations -/

/-- get_total_tx_count(m_block_hash): the stored 4-byte big-endian
cumulative count, or 0 when absent ("if not count_bytes" also treats
an empty stored record as absent; a non-bytes payload is a store
corruption with no Python counterpart, mapped to 0). -/
def get_total_tx_count (st : DbState) (mBlockHash : Bytes) : Nat :=
  match dbGet st.db (tagTxCount ++ mBlockHash) with
  | some (Val.bytes countBytes) => if countBytes = [] then 0 else bytesToNat countBytes
  | _ => 0

/-- put_total_tx_count(m_block): cumulative count = parent count (for
height > 2, else 0) plus the block's own transaction count, stored as
4 big-endian bytes. -/
def put_total_tx_count (st : DbState) (mBlock : MinorBlock) : DbState :=
  let prevCount := if 2 < mBlock.header.height then
      get_total_tx_count st mBlock.header.hashPrevMinorBlock
    else 0
  let count := prevCount + mBlock.txList.length
  { st with
    db := dbPut st.db (tagTxCount ++ mBlock.header.hashVal) (Val.bytes (natToBytes count 4)) }

/-- put_minor_block(m_block, x_shard_receive_tx_list): stores the
block, updates the cumulative count, caches header and meta, adds the
hash to its height's hash set and stores the confirmed deposit
list. -/
def put_minor_block (st : DbState) (mBlock : MinorBlock)
    (xShardReceiveTxList : List CrossShardDeposit) : DbState :=
  let mBlockHash := mBlock.header.hashVal
  let st1 := { st with db := dbPut st.db (tagMblock ++ mBlockHash) (Val.mblock mBlock) }
  let st2 := put_total_tx_count st1 mBlock
  let st3 := { st2 with
    mHeaderPool := dictInsert st2.mHeaderPool mBlockHash mBlock.header
    mMetaPool := dictInsert st2.mMetaPool mBlockHash mBlock.meta }
  let st4 := { st3 with
    heightToMinorBlockHashes :=
      heightSetAdd st3.heightToMinorBlockHashes mBlock.header.height mBlock.header.hashVal }
  put_confirmed_cross_shard_transaction_deposit_list st4 mBlockHash xShardReceiveTxList

/-- get_minor_block_by_hash(h): pure store lookup ("if data" treats
an empty record as absent; a non-minor-block payload could not
deserialize and is mapped to the absent result). -/
def get_minor_block_by_hash (st : DbState) (h : Bytes) : Option MinorBlock :=
  match dbGet st.db (tagMblock ++ h) with
  | some (Val.mblock block) => some block
  | _ => none

/-- get_minor_block_header_by_hash(h): loads the block from the store
(the pool is not consulted), caching its header on a hit. -/
def get_minor_block_header_by_hash (st : DbState) (h : Bytes) :
    Option MinorBlockHeader × DbState :=
  match get_minor_block_by_hash st h with
  | some block =>
    (some block.header, { st with mHeaderPool := dictInsert st.mHeaderPool h block.header })
  | none => (none, st)

/-- get_minor_block_meta_by_hash(h): loads the block from the store,
caching its meta on a hit. -/
def get_minor_block_meta_by_hash (st : DbState) (h : Bytes) :
    Option MinorBlockMeta × DbState :=
  match get_minor_block_by_hash st h with
  | some block =>
    (some block.meta, { st with mMetaPool := dictInsert st.mMetaPool h block.meta })
  | none => (none, st)

/-- put_minor_block_index(block): height-to-canonical-hash pointer. -/
def put_minor_block_index (st : DbState) (block : MinorBlock) : DbState :=
  { st with db := dbPut st.db (miKey block.header.height) (Val.bytes block.header.hashVal) }

/-- remove_minor_block_index(block): removes only the positional
pointer; the per-height hash set is untouched. -/
def remove_minor_block_index (st : DbState) (block : MinorBlock) : DbState :=
  { st with db := dbRemove st.db (miKey block.header.height) }

/-- get_minor_block_by_height(height): resolve the positional pointer,
then the block by hash (a non-bytes payload under b"mi_" has no
Python counterpart and is mapped to the absent result). -/
def get_minor_block_by_height (st : DbState) (height : Nat) : Option MinorBlock :=
  match dbGet st.db (miKey height) with
  | some (Val.bytes blockHash) => get_minor_block_by_hash st blockHash
  | _ => none

/-- get_block_count_by_height(height): the size of the per-height hash
set; setdefault inserts an empty set on a missing height, a state
change the model keeps. -/
def get_block_count_by_height (st : DbState) (height : Nat) : Nat × DbState :=
  match dictGet st.heightToMinorBlockHashes height with
  | some s => (s.length, st)
  | none =>
    (0, { st with heightToMinorBlockHashes := st.heightToMinorBlockHashes ++ [(height, [])] })

/-! ### ShardDbOperator: transaction index operations -/

/-- put_transaction_index(tx, block_height, index): the 8-byte
location record under b"txindex_", then the history index. -/
def put_transaction_index (st : DbState) (tx : Transaction)
    (blockHeight index : Nat) : DbState :=
  let st1 := { st with
    db := dbPut st.db (tagTxIndex ++ tx.hashVal)
        (Val.bytes (natToBytes blockHeight 4 ++ natToBytes index 4)) }
  put_transaction_history_index st1 tx blockHeight index

/-- remove_transaction_index(tx, block_height, index). -/
def remove_transaction_index (st : DbState) (tx : Transaction)
    (blockHeight index : Nat) : DbState :=
  let st1 := { st with db := dbRemove st.db (tagTxIndex ++ tx.hashVal) }
  remove_transaction_history_index st1 tx blockHeight index

/-- contain_transaction_hash(tx_hash). -/
def contain_transaction_hash (st : DbState) (txHash : Bytes) : Bool :=
  dbContains st.db (tagTxIndex ++ txHash)

/-- get_transaction_by_hash(tx_hash): none models the fatal
check(len(result) == 8) assertion; some (block?, index?) is the normal
return.  An absent entry -- and, through "if not result", an empty
stored record -- yields some (none, none).  (A non-bytes payload is a
store corruption with no Python counterpart, mapped to the fatal
result.) -/
def get_transaction_by_hash (st : DbState) (txHash : Bytes) :
    Option (Option MinorBlock × Option Nat) :=
  match dbGet st.db (tagTxIndex ++ txHash) with
  | none => some (none, none)
  | some (Val.bytes result) =>
    if result = [] then some (none, none)
    else if result.length = 8 then
      some (get_minor_block_by_height st (bytesToNat (result.take 4)),
        some (bytesToNat (result.drop 4)))
    else none
  | some _ => none

/-! ### ShardDbOperator: cross-shard and common operations -/

/-- put_minor_block_xshard_tx_list(h, tx_list). -/
def put_minor_block_xshard_tx_list (st : DbState) (h : Bytes)
    (txList : List CrossShardDeposit) : DbState :=
  { st with db := dbPut st.db (tagXShard ++ h) (Val.xlist txList) }

/-- get_minor_block_xshard_tx_list(h). -/
def get_minor_block_xshard_tx_list (st : DbState) (h : Bytes) :
    Option (List CrossShardDeposit) :=
  match dbGet st.db (tagXShard ++ h) with
  | some (Val.xlist l) => some l
  | _ => none

/-- ShardDbOperator.__getitem__(key): the body is "return self[key]",
which invokes __getitem__ on self again; each unfolding step consumes
one unit of fuel and no amount of fuel produces a value. -/
def shardDbOperatorGetItem : Nat → DbState → Bytes → Option Val
  | 0, _, _ => none
  | fuel + 1, st, key => shardDbOperatorGetItem fuel st key

/-! ### Operation traces

A syntactic trace of the state-mutating operator calls, used to state
history invariants of the per-height hash set over arbitrary call
sequences. -/

/-- One state-mutating call on a ShardDbOperator. -/
inductive Op where
  | putMinorBlockOp (b : MinorBlock) (xs : List CrossShardDeposit)
  | putMinorBlockIndexOp (b : MinorBlock)
  | removeMinorBlockIndexOp (b : MinorBlock)
  | putRootBlockOp (b : RootBlock) (rMinorHeader : Option MinorBlockHeader)
  | putTransactionIndexOp (tx : Transaction) (blockHeight index : Nat)
  | removeTransactionIndexOp (tx : Transaction) (blockHeight index : Nat)
  | putMinorBlockXshardTxListOp (h : Bytes) (txList : List CrossShardDeposit)

/-- Interpretation of a trace element as the corresponding embedded
operation (put_root_block with the default root_block_hash=None). -/
def applyOp (st : DbState) : Op → DbState
  | Op.putMinorBlockOp b xs => put_minor_block st b xs
  | Op.putMinorBlockIndexOp b => put_minor_block_index st b
  | Op.removeMinorBlockIndexOp b => remove_minor_block_index st b
  | Op.putRootBlockOp b r => put_root_block st b r none
  | Op.putTransactionIndexOp tx h i => put_transaction_index st tx h i
  | Op.removeTransactionIndexOp tx h i => remove_transaction_index st tx h i
  | Op.putMinorBlockXshardTxListOp h l => put_minor_block_xshard_tx_list st h l

/-- The hashes of the minor blocks a trace stores at a given height,
in call order. -/
def minorHashesPutAt (height : Nat) : List Op → List Bytes
  | [] => []
  | Op.putMinorBlockOp b _ :: rest =>
    if b.header.height = height then b.header.hashVal :: minorHashesPutAt height rest
    else minorHashesPutAt height rest
  | _ :: rest => minorHashesPutAt height rest

/-! ### A stored minor chain (recovery scenario)

A linear chain of n minor blocks with heights 0..n-1, block i keyed by
the 4-byte encoding of i, each pointing at its predecessor -- the
shape recover_state is specified against. -/

/-- Hash assigned to chain block i. -/
def hChain (i : Nat) : Bytes := natToBytes i 4

/-- Chain block i: height i, parent hash hChain (i - 1). -/
def chainBlock (i : Nat) : MinorBlock :=
  { header :=
      { height := i
        hashPrevMinorBlock := hChain (i - 1)
        createTime := 0
        hashVal := hChain i }
    meta := { hashEvmStateRoot := [] }
    txList := [] }

/-- The store holding exactly chain blocks 0..n-1. -/
def chainDb (n : Nat) : List (Bytes × Val) :=
  (List.range n).map (fun i => (tagMblock ++ hChain i, Val.mblock (chainBlock i)))

/-- A freshly constructed operator over the n-block chain with
max_minor_blocks_in_memory = m (and a zero root-block budget, making
the root half of recover_state a no-op). -/
def chainState (n m : Nat) : DbState :=
  mkOperator (chainDb n) false (fun _ => false) 0 m 0

/-- The minor header pool caching chain blocks j..n-1, most recent
first (the insertion order of the backward walk). -/
def hdrPoolDown (n j : Nat) : List (Bytes × MinorBlockHeader) :=
  ((List.range' j (n - j)).reverse).map (fun i => (hChain i, (chainBlock i).header))

/-- The minor meta pool caching chain blocks j..n-1, most recent
first. -/
def metaPoolDown (n j : Nat) : List (Bytes × MinorBlockMeta) :=
  ((List.range' j (n - j)).reverse).map (fun i => (hChain i, (chainBlock i).meta))

/-- A root header for invoking recover_state in the chain scenario. -/
def chainRootHeader : RootBlockHeader := { height := 0, hashPrevBlock := [], hashVal := [] }

/-! ### Concrete fixtures for counterexamples and witnesses -/

/-- A 24-byte-serializing address (20-byte recipient). -/
def wAddress : Address := { recipient := List.replicate 20 0, fullShardKey := 0 }

/-- A stored local history row for wAddress at height 1, index 0. -/
def wHistoryKey : Bytes := encodeAddressTransactionKey wAddress 1 0 false

/-- An operator with the history feature on and one history row. -/
def wState : DbState :=
  mkOperator [(wHistoryKey, Val.bytes [])] true (fun _ => true) 0 0 0

/-- An operator with the history feature on and an empty store. -/
def wStateEmpty : DbState := mkOperator [] true (fun _ => true) 0 0 0

/-- An operator with the history feature off. -/
def wStateOff : DbState := mkOperator [] false (fun _ => true) 0 0 0

/-- Hash under which the cache-read counterexample block is stored. -/
def c5Hash : Bytes := [1]

/-- The header sitting in the minor header pool for c5Hash. -/
def c5PooledHeader : MinorBlockHeader :=
  { height := 5, hashPrevMinorBlock := [], createTime := 0, hashVal := [7] }

/-- A different header, stored in the db under the same hash. -/
def c5StoredHeader : MinorBlockHeader :=
  { height := 6, hashPrevMinorBlock := [], createTime := 0, hashVal := [8] }

/-- The stored block carrying c5StoredHeader. -/
def c5StoredBlock : MinorBlock :=
  { header := c5StoredHeader, meta := { hashEvmStateRoot := [] }, txList := [] }

/-- A state whose minor header pool and store disagree at c5Hash. -/
def c5State : DbState :=
  { mkOperator [(tagMblock ++ c5Hash, Val.mblock c5StoredBlock)] false (fun _ => false) 0 0 0
      with mHeaderPool := [(c5Hash, c5PooledHeader)] }

/-- A transaction hash whose stored location record is empty. -/
def c7TxHash : Bytes := [9]

/-- A state holding an empty (zero-length) location record. -/
def c7State : DbState :=
  mkOperator [(tagTxIndex ++ c7TxHash, Val.bytes [])] false (fun _ => false) 0 0 0

/-- A minor block of height 3 with one transaction (parent hash [5],
own hash [6]). -/
def c1Block : MinorBlock :=
  { header := { height := 3, hashPrevMinorBlock := [5], createTime := 0, hashVal := [6] }
    meta := { hashEvmStateRoot := [] }
    txList :=
      [{ hashVal := [7]
         evm := { sender := [], fromFullShardKey := 0, toAddr := [], toFullShardKey := 0 } }] }

/-- A minor block of height 1 with two transactions (own hash [4]). -/
def c1BlockLow : MinorBlock :=
  { header := { height := 1, hashPrevMinorBlock := [5], createTime := 0, hashVal := [4] }
    meta := { hashEvmStateRoot := [] }
    txList :=
      [{ hashVal := [7]
         evm := { sender := [], fromFullShardKey := 0, toAddr := [], toFullShardKey := 0 } },
       { hashVal := [8]
         evm := { sender := [], fromFullShardKey := 0, toAddr := [], toFullShardKey := 0 } }] }

/-- A second 24-byte-serializing address, above wAddress. -/
def wAddress2 : Address :=
  { recipient := List.replicate 19 0 ++ [1], fullShardKey := 0 }

/-- A state holding a malformed (3-byte) location record. -/
def c7StateBad : DbState :=
  mkOperator [(tagTxIndex ++ c7TxHash, Val.bytes [1, 2, 3])] false (fun _ => false) 0 0 0

/-- A state holding a well-formed 8-byte location record
(height 1, index 2). -/
def c7StateGood : DbState :=
  mkOperator [(tagTxIndex ++ c7TxHash, Val.bytes [0, 0, 0, 1, 0, 0, 0, 2])]
    false (fun _ => false) 0 0 0

/-! ## Theorems

General facts about the byte-string codec, the lexicographic key
order and the store/dict models, followed by the settlement of the
specification claims. -/

theorem length_natToBytes (n len : Nat) : (natToBytes n len).length = len := by
  induction len generalizing n with
  | zero => rfl
  | succ l ih => simp [natToBytes, ih]

theorem validBytes_natToBytes (n len : Nat) : validBytes (natToBytes n len) := by
  induction len generalizing n with
  | zero => intro b hb; simp [natToBytes] at hb
  | succ l ih =>
    intro b hb
    simp only [natToBytes, List.mem_append, List.mem_singleton] at hb
    rcases hb with hb | hb
    · exact ih _ _ hb
    · subst hb; exact Nat.mod_lt _ (by omega)

theorem bytesToNat_cons (a : Nat) (t : Bytes) :
    bytesToNat (a :: t) = a * 256 ^ t.length + bytesToNat t := rfl

theorem bytesToNat_append (xs ys : Bytes) :
    bytesToNat (xs ++ ys) = bytesToNat xs * 256 ^ ys.length + bytesToNat ys := by
  induction xs with
  | nil => simp [bytesToNat]
  | cons a t ih =>
    rw [List.cons_append, bytesToNat_cons, bytesToNat_cons, ih, List.length_append]
    ring

theorem bytesToNat_natToBytes {n len : Nat} (h : n < 256 ^ len) :
    bytesToNat (natToBytes n len) = n := by
  induction len generalizing n with
  | zero => simp [natToBytes, bytesToNat]; omega
  | succ l ih =>
    have hdiv : n / 256 < 256 ^ l := by
      rw [Nat.div_lt_iff_lt_mul (by omega)]
      calc n < 256 ^ (l + 1) := h
        _ = 256 ^ l * 256 := by ring
    simp only [natToBytes, bytesToNat_append, ih hdiv, bytesToNat, List.length_nil,
      List.length_cons]
    simp [pow_zero]
    omega

theorem bytesToNat_lt {l : Bytes} (h : validBytes l) : bytesToNat l < 256 ^ l.length := by
  induction l with
  | nil => simp [bytesToNat]
  | cons a t ih =>
    have ha : a < 256 := h a (by simp)
    have ht : bytesToNat t < 256 ^ t.length := ih (fun b hb => h b (by simp [hb]))
    simp only [bytesToNat, List.length_cons, pow_succ]
    calc a * 256 ^ t.length + bytesToNat t
        < a * 256 ^ t.length + 256 ^ t.length := by omega
      _ = (a + 1) * 256 ^ t.length := by ring
      _ ≤ 256 * 256 ^ t.length := by
          exact Nat.mul_le_mul_right _ (by omega)
      _ = 256 ^ t.length * 256 := by ring

theorem natToBytes_ne_nil {n len : Nat} (h : 0 < len) : natToBytes n len ≠ [] := by
  intro hnil
  have := length_natToBytes n len
  rw [hnil] at this
  simp at this
  omega

theorem bytesLt_cons_iff {a b : Nat} {l1 l2 : Bytes} :
    bytesLt (a :: l1) (b :: l2) ↔ a < b ∨ (a = b ∧ bytesLt l1 l2) := by
  constructor
  · intro h
    cases h with
    | rel h => exact Or.inl h
    | cons h => exact Or.inr ⟨rfl, h⟩
  · rintro (h | ⟨rfl, h⟩)
    · exact List.Lex.rel h
    · exact List.Lex.cons h

theorem bytesLt_trans {a b c : Bytes} (h1 : bytesLt a b) (h2 : bytesLt b c) :
    bytesLt a c :=
  IsTrans.trans a b c h1 h2

theorem bytesLt_trichotomy (a b : Bytes) : bytesLt a b ∨ a = b ∨ bytesLt b a :=
  trichotomous_of (List.Lex (· < ·)) a b

theorem bytesLt_irrefl (a : Bytes) : ¬ bytesLt a a :=
  IsIrrefl.irrefl a

theorem bytesLt_append_left_iff (s t1 t2 : Bytes) :
    bytesLt (s ++ t1) (s ++ t2) ↔ bytesLt t1 t2 := by
  induction s with
  | nil => simp
  | cons a s ih =>
    rw [List.cons_append, List.cons_append, bytesLt_cons_iff]
    simp [ih]

theorem bytesLt_append_iff {s1 s2 t1 t2 : Bytes} (h : s1.length = s2.length) :
    bytesLt (s1 ++ t1) (s2 ++ t2) ↔ bytesLt s1 s2 ∨ (s1 = s2 ∧ bytesLt t1 t2) := by
  induction s1 generalizing s2 with
  | nil =>
    cases s2 with
    | nil => simp [bytesLt]
    | cons b s2 => simp at h
  | cons a s1 ih =>
    cases s2 with
    | nil => simp at h
    | cons b s2 =>
      simp only [List.length_cons, Nat.succ.injEq] at h
      rw [List.cons_append, List.cons_append, bytesLt_cons_iff, bytesLt_cons_iff, ih h]
      constructor
      · rintro (hab | ⟨rfl, (hlt | ⟨rfl, ht⟩)⟩)
        · exact Or.inl (Or.inl hab)
        · exact Or.inl (Or.inr ⟨rfl, hlt⟩)
        · exact Or.inr ⟨rfl, ht⟩
      · rintro ((hab | ⟨rfl, hlt⟩) | ⟨heq, ht⟩)
        · exact Or.inl hab
        · exact Or.inr ⟨rfl, Or.inl hlt⟩
        · rw [List.cons.injEq] at heq
          exact Or.inr ⟨heq.1, Or.inr ⟨heq.2, ht⟩⟩

theorem bytesLt_iff_bytesToNat {l1 l2 : Bytes} (h : l1.length = l2.length)
    (v1 : validBytes l1) (v2 : validBytes l2) :
    bytesLt l1 l2 ↔ bytesToNat l1 < bytesToNat l2 := by
  induction l1 generalizing l2 with
  | nil =>
    cases l2 with
    | nil => simp [bytesLt, bytesToNat]
    | cons b t => simp at h
  | cons a t1 ih =>
    cases l2 with
    | nil => simp at h
    | cons b t2 =>
      simp only [List.length_cons, Nat.succ.injEq] at h
      have ha : a < 256 := v1 a (by simp)
      have hb : b < 256 := v2 b (by simp)
      have hv1 : validBytes t1 := fun x hx => v1 x (by simp [hx])
      have hv2 : validBytes t2 := fun x hx => v2 x (by simp [hx])
      have h1 : bytesToNat t1 < 256 ^ t1.length := bytesToNat_lt hv1
      have h2 : bytesToNat t2 < 256 ^ t2.length := bytesToNat_lt hv2
      rw [bytesLt_cons_iff, bytesToNat_cons, bytesToNat_cons, ih h hv1 hv2, h]
      constructor
      · rintro (hab | ⟨rfl, ht⟩)
        · have : (a + 1) * 256 ^ t2.length ≤ b * 256 ^ t2.length :=
            Nat.mul_le_mul_right _ (by omega)
          have ha1 : a * 256 ^ t2.length + bytesToNat t1 < (a + 1) * 256 ^ t2.length := by
            rw [h] at h1
            nlinarith
          omega
        · omega
      · intro hlt
        rcases Nat.lt_trichotomy a b with hab | rfl | hba
        · exact Or.inl hab
        · right
          constructor
          · rfl
          · omega
        · exfalso
          have : (b + 1) * 256 ^ t2.length ≤ a * 256 ^ t2.length :=
            Nat.mul_le_mul_right _ (by omega)
          nlinarith

theorem bytesToNat_pos_of_bytesLt_cons {a : Nat} {t k : Bytes} (ha : 0 < a)
    (h : bytesLt (a :: t) k) : 0 < bytesToNat k := by
  cases h with
  | @rel _ _ a2 l2 hr =>
    rw [bytesToNat_cons]
    have h2 : 0 < 256 ^ l2.length := pow_pos (by omega) _
    nlinarith
  | @cons _ _ l2 hc =>
    rw [bytesToNat_cons]
    have h2 : 0 < 256 ^ l2.length := pow_pos (by omega) _
    nlinarith

theorem find?_filter_of_imp {α : Type} {p q : α → Bool} (l : List α)
    (h : ∀ a, p a = true → q a = true) :
    List.find? p (l.filter q) = List.find? p l := by
  induction l with
  | nil => rfl
  | cons a l ih =>
    by_cases hq : q a = true
    · rw [List.filter_cons_of_pos hq]
      by_cases hp : p a = true
      · rw [List.find?_cons_of_pos _ hp, List.find?_cons_of_pos _ hp]
      · rw [List.find?_cons_of_neg _ (by simp_all), List.find?_cons_of_neg _ (by simp_all)]
        exact ih
    · rw [List.filter_cons_of_neg (by simp_all)]
      have hp : p a = false := by
        by_contra hcon
        exact hq (h a (by simp_all))
      rw [List.find?_cons_of_neg _ (by simp_all)]
      exact ih

theorem dbGet_dbPut_self (db : List (Bytes × Val)) (k : Bytes) (v : Val) :
    dbGet (dbPut db k v) k = some v := by
  unfold dbGet dbPut
  rw [List.find?_cons_of_pos _ (by simp)]

theorem dbGet_dbRemove_ne (db : List (Bytes × Val)) {k' k : Bytes} (h : k' ≠ k) :
    dbGet (dbRemove db k') k = dbGet db k := by
  unfold dbGet dbRemove
  rw [find?_filter_of_imp db]
  intro a ha
  simp only [decide_eq_true_eq] at ha ⊢
  rw [ha]
  exact fun hc => h hc.symm

theorem dbGet_dbPut_ne (db : List (Bytes × Val)) {k' k : Bytes} (v : Val) (h : k' ≠ k) :
    dbGet (dbPut db k' v) k = dbGet db k := by
  have h2 := dbGet_dbRemove_ne db h
  unfold dbGet at h2
  unfold dbGet dbPut
  rw [List.find?_cons_of_neg _ (by simp [h])]
  exact h2

theorem dbGet_dbRemove_self (db : List (Bytes × Val)) (k : Bytes) :
    dbGet (dbRemove db k) k = none := by
  unfold dbGet dbRemove
  rw [List.find?_eq_none.mpr]
  intro a ha
  simp only [List.mem_filter, decide_eq_true_eq] at ha
  simp [ha.2]

theorem dictGet_dictInsert_self {K V : Type} [DecidableEq K]
    (d : List (K × V)) (k : K) (v : V) :
    dictGet (dictInsert d k v) k = some v := by
  unfold dictInsert
  by_cases h : (dictGet d k).isSome
  · rw [if_pos h]
    unfold dictGet at h ⊢
    induction d with
    | nil => simp at h
    | cons a d ih =>
      by_cases ha : a.1 = k
      · simp only [List.map_cons, if_pos ha]
        rw [List.find?_cons_of_pos _ (by simp)]
      · rw [List.find?_cons_of_neg _ (by simp [ha])] at h
        simp only [List.map_cons, if_neg ha]
        rw [List.find?_cons_of_neg _ (by simp [ha])]
        exact ih h
  · rw [if_neg h]
    unfold dictGet at h ⊢
    rw [List.find?_append]
    have hnone : List.find? (fun kv => decide (kv.1 = k)) d = none := by
      cases hf : List.find? (fun kv => decide (kv.1 = k)) d with
      | none => rfl
      | some kv => rw [hf] at h; simp at h
    rw [hnone]
    simp

theorem find?_map_replace_ne {K V : Type} [DecidableEq K]
    (d : List (K × V)) {k' k : K} (v : V) (h : k' ≠ k) :
    List.find? (fun kv => decide (kv.1 = k))
        (d.map (fun kv => if kv.1 = k' then (k', v) else kv))
      = List.find? (fun kv => decide (kv.1 = k)) d := by
  induction d with
  | nil => rfl
  | cons a d ih =>
    rw [List.map_cons]
    by_cases ha : a.1 = k'
    · rw [if_pos ha, List.find?_cons_of_neg _ (by simp [h]),
        List.find?_cons_of_neg _ (by simp [ha, h])]
      exact ih
    · rw [if_neg ha]
      by_cases hak : a.1 = k
      · rw [List.find?_cons_of_pos _ (by simp [hak]),
          List.find?_cons_of_pos _ (by simp [hak])]
      · rw [List.find?_cons_of_neg _ (by simp [hak]),
          List.find?_cons_of_neg _ (by simp [hak])]
        exact ih

theorem dictGet_dictInsert_ne {K V : Type} [DecidableEq K]
    (d : List (K × V)) {k' k : K} (v : V) (h : k' ≠ k) :
    dictGet (dictInsert d k' v) k = dictGet d k := by
  unfold dictInsert
  by_cases hs : (dictGet d k').isSome
  · rw [if_pos hs]
    unfold dictGet
    rw [find?_map_replace_ne d v h]
  · rw [if_neg hs]
    unfold dictGet
    rw [List.find?_append]
    cases hf : List.find? (fun kv => decide (kv.1 = k)) d with
    | none => simp [List.find?, h]
    | some kv => simp

theorem dictInsert_fresh {K V : Type} [DecidableEq K]
    (d : List (K × V)) {k : K} (v : V) (h : dictGet d k = none) :
    dictInsert d k v = d ++ [(k, v)] := by
  unfold dictInsert
  rw [h]
  simp

theorem mem_reversedRangeIter {db : List (Bytes × Val)} {start stop : Bytes}
    {kv : Bytes × Val} :
    kv ∈ reversedRangeIter db start stop ↔
      kv ∈ db ∧ bytesLt stop kv.1 ∧ ¬ bytesLt start kv.1 := by
  unfold reversedRangeIter
  rw [List.mem_insertionSort, List.mem_filter]
  simp

theorem txLoop_length (l : List (Bytes × Val)) :
    ∀ (limit : Int) (acc : List TransactionDetail) (next : Bytes),
      (getTransactionsByAddressLoop l limit acc next).1.length ≤ acc.length + limit.toNat := by
  induction l with
  | nil =>
    intro limit acc next
    simp [getTransactionsByAddressLoop]
  | cons kv rest ih =>
    intro limit acc next
    obtain ⟨k, v⟩ := kv
    by_cases hl : limit - 1 < 0
    · simp [getTransactionsByAddressLoop, hl]
    · simp only [getTransactionsByAddressLoop, if_neg hl]
      have h2 := ih (limit - 1)
        (acc ++ [⟨k, bytesToNat ((k.drop (5 + 24)).take 4),
          decide (k.getD (5 + 24 + 4) 0 = 0), bytesToNat (k.drop (5 + 24 + 4 + 1))⟩])
        (natToBytes (bytesToNat k - 1) k.length)
      simp only [List.length_append, List.length_cons, List.length_nil] at h2
      have h3 : (limit - 1).toNat + 1 = limit.toNat := by omega
      omega

theorem txLoop_cursor_spec (l : List (Bytes × Val)) :
    ∀ (limit : Int) (acc : List TransactionDetail) (next : Bytes),
      ((getTransactionsByAddressLoop l limit acc next).1 = acc ∧
        (getTransactionsByAddressLoop l limit acc next).2 = next) ∨
      (∃ r, (getTransactionsByAddressLoop l limit acc next).1.getLast? = some r ∧
        r.key ∈ l.map Prod.fst ∧
        (getTransactionsByAddressLoop l limit acc next).2
          = natToBytes (bytesToNat r.key - 1) r.key.length) := by
  induction l with
  | nil =>
    intro limit acc next
    exact Or.inl ⟨rfl, rfl⟩
  | cons kv rest ih =>
    intro limit acc next
    obtain ⟨k, v⟩ := kv
    by_cases hl : limit - 1 < 0
    · simp [getTransactionsByAddressLoop, hl]
    · simp only [getTransactionsByAddressLoop, if_neg hl]
      rcases ih (limit - 1)
        (acc ++ [⟨k, bytesToNat ((k.drop (5 + 24)).take 4),
          decide (k.getD (5 + 24 + 4) 0 = 0), bytesToNat (k.drop (5 + 24 + 4 + 1))⟩])
        (natToBytes (bytesToNat k - 1) k.length) with h | h
      · right
        refine ⟨⟨k, bytesToNat ((k.drop (5 + 24)).take 4),
          decide (k.getD (5 + 24 + 4) 0 = 0), bytesToNat (k.drop (5 + 24 + 4 + 1))⟩,
          ?_, by simp, h.2⟩
        rw [h.1]
        exact List.getLast?_concat _
      · obtain ⟨r, hlast, hmem, hcur⟩ := h
        right
        exact ⟨r, hlast, by simp only [List.map_cons]; exact List.mem_cons_of_mem _ hmem, hcur⟩

theorem txLoop_keys_mem (l : List (Bytes × Val)) :
    ∀ (limit : Int) (acc : List TransactionDetail) (next : Bytes) (r : TransactionDetail),
      r ∈ (getTransactionsByAddressLoop l limit acc next).1 →
      r ∈ acc ∨ r.key ∈ l.map Prod.fst := by
  induction l with
  | nil =>
    intro limit acc next r hr
    simp only [getTransactionsByAddressLoop] at hr
    exact Or.inl hr
  | cons kv rest ih =>
    intro limit acc next r hr
    obtain ⟨k, v⟩ := kv
    by_cases hl : limit - 1 < 0
    · simp only [getTransactionsByAddressLoop, if_pos hl] at hr
      exact Or.inl hr
    · simp only [getTransactionsByAddressLoop, if_neg hl] at hr
      rcases ih _ _ _ _ hr with hacc | hkey
      · rcases List.mem_append.mp hacc with h1 | h1
        · exact Or.inl h1
        · simp only [List.mem_singleton] at h1
          subst h1
          simp
      · simp only [List.map_cons]
        exact Or.inr (List.mem_cons_of_mem _ hkey)

/-- C2: with the history flag enabled, get_transactions_by_address
returns at most limit rows; when at least one row was consumed the
returned cursor is the last consumed key's big-endian value minus 1,
re-encoded at the same byte length, and a follow-up call passing this
cursor only returns rows whose keys are strictly below the last
returned row's key. -/
theorem c2_get_transactions_by_address_pagination
    (st : DbState) (address : Address) (start0 : Bytes) (limit limit2 : Int)
    (hflag : st.enableTxHistory = true)
    (hdb : ∀ kv ∈ st.db, validBytes kv.1) :
    ((get_transactions_by_address st address start0 limit).1.length : Int) ≤ max limit 0 ∧
    ∀ r, (get_transactions_by_address st address start0 limit).1.getLast? = some r →
      (get_transactions_by_address st address start0 limit).2
          = natToBytes (bytesToNat r.key - 1) r.key.length ∧
        ∀ r2 ∈ (get_transactions_by_address st address
            ((get_transactions_by_address st address start0 limit).2) limit2).1,
          bytesLt r2.key r.key := by
  have hmain : ∀ (s : Bytes) (l : Int), get_transactions_by_address st address s l
      = getTransactionsByAddressLoop
          (reversedRangeIter st.db (addressTxEffectiveStart address s) (addressTxKeyEnd address))
          l [] (addressTxKeyEnd address) := by
    intro s l
    unfold get_transactions_by_address
    rw [hflag]
    simp
  constructor
  · rw [hmain]
    have h := txLoop_length
      (reversedRangeIter st.db (addressTxEffectiveStart address start0) (addressTxKeyEnd address))
      limit [] (addressTxKeyEnd address)
    simp only [List.length_nil, Nat.zero_add] at h
    omega
  · intro r hr
    simp only [hmain] at hr ⊢
    rcases txLoop_cursor_spec
        (reversedRangeIter st.db (addressTxEffectiveStart address start0) (addressTxKeyEnd address))
        limit [] (addressTxKeyEnd address) with ⟨h1, _⟩ | ⟨r', hlast, hmem, hcur⟩
    · rw [h1] at hr
      simp at hr
    · rw [hlast] at hr
      have hrr : r' = r := Option.some.inj hr
      rw [← hrr]
      obtain ⟨kv, hkvmem, hkvkey⟩ := List.mem_map.mp hmem
      rw [mem_reversedRangeIter] at hkvmem
      obtain ⟨hkvdb, hkvgt, hkvle⟩ := hkvmem
      rw [hkvkey] at hkvgt hkvle
      have hvalid : validBytes r'.key := by
        rw [← hkvkey]
        exact hdb kv hkvdb
      have hecons : addressTxKeyEnd address
          = 97 :: ([100, 100, 114, 95] ++ addressSerialize address) := rfl
      have hpos : 0 < bytesToNat r'.key := by
        rw [hecons] at hkvgt
        exact bytesToNat_pos_of_bytesLt_cons (by omega) hkvgt
      have hne : r'.key ≠ [] := by
        intro hnil
        rw [hnil] at hkvgt
        exact List.Lex.not_nil_right _ _ hkvgt
      have hlen : 0 < r'.key.length := List.length_pos.mpr hne
      have hvlt : bytesToNat r'.key < 256 ^ r'.key.length := bytesToNat_lt hvalid
      have hc2len : (natToBytes (bytesToNat r'.key - 1) r'.key.length).length
          = r'.key.length := length_natToBytes _ _
      have hc2val : bytesToNat (natToBytes (bytesToNat r'.key - 1) r'.key.length)
          = bytesToNat r'.key - 1 := bytesToNat_natToBytes (by omega)
      have hc2valid : validBytes (natToBytes (bytesToNat r'.key - 1) r'.key.length) :=
        validBytes_natToBytes _ _
      have hcur2lt : bytesLt (natToBytes (bytesToNat r'.key - 1) r'.key.length) r'.key := by
        rw [bytesLt_iff_bytesToNat hc2len hc2valid hvalid, hc2val]
        omega
      have hstart1le : ¬ bytesLt (addressTxOriginalStart address) r'.key := by
        intro hOS
        unfold addressTxEffectiveStart at hkvle
        by_cases hcond : start0 = [] ∨ bytesLt (addressTxOriginalStart address) start0
        · rw [if_pos hcond] at hkvle
          exact hkvle hOS
        · rw [if_neg hcond] at hkvle
          push_neg at hcond
          rcases bytesLt_trichotomy start0 r'.key with h1 | h1 | h1
          · exact hkvle h1
          · exact hcond.2 (by rw [h1]; exact hOS)
          · exact hcond.2 (bytesLt_trans hOS h1)
      have hnoreset :
          addressTxEffectiveStart address (natToBytes (bytesToNat r'.key - 1) r'.key.length)
            = natToBytes (bytesToNat r'.key - 1) r'.key.length := by
        unfold addressTxEffectiveStart
        rw [if_neg]
        push_neg
        constructor
        · exact natToBytes_ne_nil hlen
        · intro hOS2
          exact hstart1le (bytesLt_trans hOS2 hcur2lt)
      refine ⟨hcur, ?_⟩
      rw [hcur, hnoreset]
      intro r2 hr2
      rcases txLoop_keys_mem _ _ _ _ _ hr2 with hin | hkey2
      · simp at hin
      · obtain ⟨kv2, hkv2mem, hkv2key⟩ := List.mem_map.mp hkey2
        rw [mem_reversedRangeIter] at hkv2mem
        obtain ⟨_, _, hkv2le⟩ := hkv2mem
        rw [hkv2key] at hkv2le
        rcases bytesLt_trichotomy r2.key
            (natToBytes (bytesToNat r'.key - 1) r'.key.length) with h1 | h1 | h1
        · exact bytesLt_trans h1 hcur2lt
        · rw [h1]
          exact hcur2lt
        · exact absurd h1 hkv2le

/-- Witness for C2 at a concrete one-row store with the history
feature enabled. -/
theorem c2_witness :
    wState.enableTxHistory = true ∧ (∀ kv ∈ wState.db, validBytes kv.1) ∧
    (((get_transactions_by_address wState wAddress [] 10).1.length : Int) ≤ max 10 0 ∧
      ∀ r, (get_transactions_by_address wState wAddress [] 10).1.getLast? = some r →
        (get_transactions_by_address wState wAddress [] 10).2
            = natToBytes (bytesToNat r.key - 1) r.key.length ∧
          ∀ r2 ∈ (get_transactions_by_address wState wAddress
              ((get_transactions_by_address wState wAddress [] 10).2) 10).1,
            bytesLt r2.key r.key) :=
  ⟨rfl, by decide,
    c2_get_transactions_by_address_pagination wState wAddress [] 10 10 rfl (by decide)⟩

/-- C10: with the history flag enabled, a scan that consumes no rows
(no key in the scanned range) returns the address key lower bound
b"addr_" + address.serialize() as its cursor, not the empty byte
string; the empty cursor is returned exactly on the disabled-flag
path, and an enabled-flag call never returns an empty cursor. -/
theorem c10_empty_scan_cursor :
    (∀ (st : DbState) (address : Address) (start0 : Bytes) (limit : Int),
      st.enableTxHistory = true →
      (∀ kv ∈ st.db, ¬(bytesLt (addressTxKeyEnd address) kv.1 ∧
        ¬ bytesLt (addressTxEffectiveStart address start0) kv.1)) →
      get_transactions_by_address st address start0 limit
        = ([], addressTxKeyEnd address)) ∧
    (∀ (st : DbState) (address : Address) (start0 : Bytes) (limit : Int),
      st.enableTxHistory = false →
      get_transactions_by_address st address start0 limit = ([], [])) ∧
    (∀ (st : DbState) (address : Address) (start0 : Bytes) (limit : Int),
      st.enableTxHistory = true →
      (get_transactions_by_address st address start0 limit).2 ≠ []) := by
  refine ⟨?_, ?_, ?_⟩
  · intro st address start0 limit hflag hno
    have hiter : reversedRangeIter st.db (addressTxEffectiveStart address start0)
        (addressTxKeyEnd address) = [] := by
      unfold reversedRangeIter
      have hfil : List.filter
          (fun kv => decide (bytesLt (addressTxKeyEnd address) kv.1)
            && !decide (bytesLt (addressTxEffectiveStart address start0) kv.1)) st.db = [] := by
        rw [List.filter_eq_nil_iff]
        intro kv hkv
        have h := hno kv hkv
        push_neg at h
        by_cases hA : bytesLt (addressTxKeyEnd address) kv.1
        · have hB := h hA
          simp [hA, hB]
        · simp [hA]
      rw [hfil]
      rfl
    unfold get_transactions_by_address
    rw [hflag, hiter]
    simp [getTransactionsByAddressLoop]
  · intro st address start0 limit hflag
    unfold get_transactions_by_address
    rw [hflag]
    simp
  · intro st address start0 limit hflag
    have hmain : get_transactions_by_address st address start0 limit
        = getTransactionsByAddressLoop
            (reversedRangeIter st.db (addressTxEffectiveStart address start0)
              (addressTxKeyEnd address))
            limit [] (addressTxKeyEnd address) := by
      unfold get_transactions_by_address
      rw [hflag]
      simp
    rw [hmain]
    rcases txLoop_cursor_spec
        (reversedRangeIter st.db (addressTxEffectiveStart address start0)
          (addressTxKeyEnd address))
        limit [] (addressTxKeyEnd address) with ⟨_, hc⟩ | ⟨r', _, hmem, hcur⟩
    · rw [hc]
      have hecons : addressTxKeyEnd address
          = 97 :: ([100, 100, 114, 95] ++ addressSerialize address) := rfl
      rw [hecons]
      simp
    · rw [hcur]
      obtain ⟨kv, hkvmem, hkvkey⟩ := List.mem_map.mp hmem
      rw [mem_reversedRangeIter] at hkvmem
      obtain ⟨_, hkvgt, _⟩ := hkvmem
      rw [hkvkey] at hkvgt
      have hne : r'.key ≠ [] := by
        intro hnil
        rw [hnil] at hkvgt
        exact List.Lex.not_nil_right _ _ hkvgt
      exact natToBytes_ne_nil (List.length_pos.mpr hne)

/-- Witness for C10: an enabled-flag operator over an empty store, a
disabled-flag operator, and the nonempty cursor at the former. -/
theorem c10_witness :
    (wStateEmpty.enableTxHistory = true ∧
      (∀ kv ∈ wStateEmpty.db, ¬(bytesLt (addressTxKeyEnd wAddress) kv.1 ∧
        ¬ bytesLt (addressTxEffectiveStart wAddress []) kv.1)) ∧
      get_transactions_by_address wStateEmpty wAddress [] 10
        = ([], addressTxKeyEnd wAddress)) ∧
    (wStateOff.enableTxHistory = false ∧
      get_transactions_by_address wStateOff wAddress [] 10 = ([], [])) ∧
    (get_transactions_by_address wStateEmpty wAddress [] 10).2 ≠ [] :=
  ⟨⟨rfl, by simp [wStateEmpty, mkOperator],
      c10_empty_scan_cursor.1 wStateEmpty wAddress [] 10 rfl (by simp [wStateEmpty, mkOperator])⟩,
    ⟨rfl, c10_empty_scan_cursor.2.1 wStateOff wAddress [] 10 rfl⟩,
    c10_empty_scan_cursor.2.2 wStateEmpty wAddress [] 10 rfl⟩

theorem natToBytes_inj {n1 n2 len : Nat} (h1 : n1 < 256 ^ len) (h2 : n2 < 256 ^ len) :
    natToBytes n1 len = natToBytes n2 len ↔ n1 = n2 := by
  constructor
  · intro he
    rw [← bytesToNat_natToBytes h1, he, bytesToNat_natToBytes h2]
  · intro he
    rw [he]

theorem key_components_lt (s1 s2 hB1 hB2 f1 f2 iB1 iB2 : Bytes)
    (hs : s1.length = s2.length) (hh : hB1.length = hB2.length)
    (hf : f1.length = f2.length) :
    bytesLt (tagAddr ++ (s1 ++ (hB1 ++ (f1 ++ iB1))))
        (tagAddr ++ (s2 ++ (hB2 ++ (f2 ++ iB2)))) ↔
      bytesLt s1 s2 ∨ (s1 = s2 ∧ (bytesLt hB1 hB2 ∨ (hB1 = hB2 ∧
        (bytesLt f1 f2 ∨ (f1 = f2 ∧ bytesLt iB1 iB2))))) := by
  rw [bytesLt_append_left_iff, bytesLt_append_iff hs, bytesLt_append_iff hh,
    bytesLt_append_iff hf]

/-- C3: the address-history key encoding is order-preserving: for
heights and indices below 2^32 and equal-width addresses,
byte-lexicographic order of the encoded keys coincides with ascending
lexicographic order of (address bytes, height, flag, index), where at
equal address and height a cross-shard entry (flag byte 0x00) sorts
before a local entry (flag byte 0x01); a reverse range scan over an
address's keys therefore yields its entries newest-first. -/
theorem c3_encode_address_transaction_key_order
    (a1 a2 : Address) (hgt1 hgt2 idx1 idx2 : Nat) (cs1 cs2 : Bool)
    (hs : (addressSerialize a1).length = (addressSerialize a2).length)
    (hh1 : hgt1 < 2 ^ 32) (hh2 : hgt2 < 2 ^ 32)
    (hi1 : idx1 < 2 ^ 32) (hi2 : idx2 < 2 ^ 32) :
    bytesLt (encodeAddressTransactionKey a1 hgt1 idx1 cs1)
        (encodeAddressTransactionKey a2 hgt2 idx2 cs2) ↔
      bytesLt (addressSerialize a1) (addressSerialize a2) ∨
        (addressSerialize a1 = addressSerialize a2 ∧
          (hgt1 < hgt2 ∨ (hgt1 = hgt2 ∧
            ((cs1 = true ∧ cs2 = false) ∨ (cs1 = cs2 ∧ idx1 < idx2))))) := by
  have h232 : (2 : Nat) ^ 32 = 256 ^ 4 := by norm_num
  have hh1' : hgt1 < 256 ^ 4 := by rw [← h232]; exact hh1
  have hh2' : hgt2 < 256 ^ 4 := by rw [← h232]; exact hh2
  have hi1' : idx1 < 256 ^ 4 := by rw [← h232]; exact hi1
  have hi2' : idx2 < 256 ^ 4 := by rw [← h232]; exact hi2
  have hassoc : ∀ (s hB f iB : Bytes),
      tagAddr ++ s ++ hB ++ f ++ iB = tagAddr ++ (s ++ (hB ++ (f ++ iB))) := by
    intro s hB f iB
    simp [List.append_assoc]
  have hbh : bytesLt (natToBytes hgt1 4) (natToBytes hgt2 4) ↔ hgt1 < hgt2 := by
    rw [bytesLt_iff_bytesToNat (by rw [length_natToBytes, length_natToBytes])
      (validBytes_natToBytes _ _) (validBytes_natToBytes _ _),
      bytesToNat_natToBytes hh1', bytesToNat_natToBytes hh2']
  have hbi : bytesLt (natToBytes idx1 4) (natToBytes idx2 4) ↔ idx1 < idx2 := by
    rw [bytesLt_iff_bytesToNat (by rw [length_natToBytes, length_natToBytes])
      (validBytes_natToBytes _ _) (validBytes_natToBytes _ _),
      bytesToNat_natToBytes hi1', bytesToNat_natToBytes hi2']
  have hbheq : natToBytes hgt1 4 = natToBytes hgt2 4 ↔ hgt1 = hgt2 :=
    natToBytes_inj hh1' hh2'
  simp only [encodeAddressTransactionKey]
  rw [hassoc, hassoc,
    key_components_lt _ _ _ _ _ _ _ _ hs (by rw [length_natToBytes, length_natToBytes])
      (by cases cs1 <;> cases cs2 <;> rfl),
    hbh, hbheq, hbi]
  cases cs1 <;> cases cs2 <;>
    simp [List.Lex.singleton_iff, bytesLt]

/-- Witness for C3 at two concrete addresses and concrete
coordinates. -/
theorem c3_witness :
    (addressSerialize wAddress).length = (addressSerialize wAddress2).length ∧
    (1 : Nat) < 2 ^ 32 ∧ (2 : Nat) < 2 ^ 32 ∧ (0 : Nat) < 2 ^ 32 ∧ (1 : Nat) < 2 ^ 32 ∧
    (bytesLt (encodeAddressTransactionKey wAddress 1 0 true)
        (encodeAddressTransactionKey wAddress2 2 1 false) ↔
      bytesLt (addressSerialize wAddress) (addressSerialize wAddress2) ∨
        (addressSerialize wAddress = addressSerialize wAddress2 ∧
          ((1 : Nat) < 2 ∨ (1 = 2 ∧
            ((true = true ∧ false = false) ∨ (true = false ∧ (0 : Nat) < 1)))))) :=
  ⟨by decide, by decide, by decide, by decide, by decide,
    c3_encode_address_transaction_key_order wAddress wAddress2 1 2 0 1 true false
      (by decide) (by decide) (by decide) (by decide) (by decide)⟩

theorem tagMblock_ne_tagTxCount (x y : Bytes) : tagMblock ++ x ≠ tagTxCount ++ y := by
  simp [tagMblock, tagTxCount]

theorem tagXr_ne_tagTxCount (x y : Bytes) : tagXr ++ x ≠ tagTxCount ++ y := by
  simp [tagXr, tagTxCount]

theorem get_total_tx_count_db_other (st : DbState) (k : Bytes) (v : Val) (h : Bytes)
    (hne : k ≠ tagTxCount ++ h) :
    get_total_tx_count { st with db := dbPut st.db k v } h = get_total_tx_count st h := by
  unfold get_total_tx_count
  rw [show ({ st with db := dbPut st.db k v } : DbState).db = dbPut st.db k v from rfl,
    dbGet_dbPut_ne _ _ hne]

/-- C1: put_minor_block records, under b"tx_count_" + hash(B), the
parent's stored cumulative count plus len(B.tx_list) when B's height
exceeds 2, and just len(B.tx_list) otherwise (parent ignored), and
get_total_tx_count(hash(B)) returns exactly this count. -/
theorem c1_put_minor_block_total_tx_count
    (st : DbState) (b : MinorBlock) (xs : List CrossShardDeposit)
    (hcount : (if 2 < b.header.height then
        get_total_tx_count st b.header.hashPrevMinorBlock else 0)
      + b.txList.length < 2 ^ 32) :
    get_total_tx_count (put_minor_block st b xs) b.header.hashVal
      = (if 2 < b.header.height then
          get_total_tx_count st b.header.hashPrevMinorBlock else 0)
        + b.txList.length := by
  have h232 : (2 : Nat) ^ 32 = 256 ^ 4 := by norm_num
  have hprev : get_total_tx_count
      { st with db := dbPut st.db (tagMblock ++ b.header.hashVal) (Val.mblock b) }
      b.header.hashPrevMinorBlock
        = get_total_tx_count st b.header.hashPrevMinorBlock :=
    get_total_tx_count_db_other st _ _ _ (tagMblock_ne_tagTxCount _ _)
  simp only [put_minor_block, put_total_tx_count,
    put_confirmed_cross_shard_transaction_deposit_list, hprev]
  by_cases hflag : st.enableTxHistory = false
  · rw [if_pos hflag]
    unfold get_total_tx_count
    simp only []
    rw [dbGet_dbPut_self]
    simp only []
    rw [if_neg (natToBytes_ne_nil (show 0 < 4 by omega))]
    exact bytesToNat_natToBytes (by rw [← h232]; exact hcount)
  · rw [if_neg hflag]
    unfold get_total_tx_count
    simp only []
    rw [dbGet_dbPut_ne _ _ (tagXr_ne_tagTxCount _ _), dbGet_dbPut_self]
    simp only []
    rw [if_neg (natToBytes_ne_nil (show 0 < 4 by omega))]
    exact bytesToNat_natToBytes (by rw [← h232]; exact hcount)

/-- Witness for C1 at a height-3 block over an empty store. -/
theorem c1_witness :
    ((if 2 < c1Block.header.height then
        get_total_tx_count wStateEmpty c1Block.header.hashPrevMinorBlock else 0)
      + c1Block.txList.length < 2 ^ 32) ∧
    get_total_tx_count (put_minor_block wStateEmpty c1Block []) c1Block.header.hashVal
      = (if 2 < c1Block.header.height then
          get_total_tx_count wStateEmpty c1Block.header.hashPrevMinorBlock else 0)
        + c1Block.txList.length :=
  ⟨by decide, c1_put_minor_block_total_tx_count wStateEmpty c1Block [] (by decide)⟩

/-- C9: get_total_tx_count returns 0 for a hash with no stored
tx_count_ entry instead of failing, and consequently
put_total_tx_count on a block of height > 2 whose parent has no
stored count records just len(tx_list), as if the parent's count
were zero. -/
theorem c9_missing_parent_count_defaults_to_zero :
    (∀ (st : DbState) (h : Bytes), dbGet st.db (tagTxCount ++ h) = none →
      get_total_tx_count st h = 0) ∧
    (∀ (st : DbState) (b : MinorBlock), 2 < b.header.height →
      dbGet st.db (tagTxCount ++ b.header.hashPrevMinorBlock) = none →
      b.txList.length < 2 ^ 32 →
      get_total_tx_count (put_total_tx_count st b) b.header.hashVal = b.txList.length) := by
  have h232 : (2 : Nat) ^ 32 = 256 ^ 4 := by norm_num
  constructor
  · intro st h hnone
    unfold get_total_tx_count
    rw [hnone]
  · intro st b hh hnone hlen
    have h0 : get_total_tx_count st b.header.hashPrevMinorBlock = 0 := by
      unfold get_total_tx_count
      rw [hnone]
    simp only [put_total_tx_count, if_pos hh, h0]
    unfold get_total_tx_count
    simp only []
    rw [dbGet_dbPut_self]
    simp only []
    rw [if_neg (natToBytes_ne_nil (show 0 < 4 by omega))]
    rw [bytesToNat_natToBytes (by rw [← h232]; omega)]
    omega

/-- Witness for C9: a missing count defaults to 0, and the height-3
block over an empty store records just its own transaction count. -/
theorem c9_witness :
    (dbGet wStateOff.db (tagTxCount ++ [42]) = none ∧
      get_total_tx_count wStateOff [42] = 0) ∧
    (2 < c1Block.header.height ∧
      dbGet wStateOff.db (tagTxCount ++ c1Block.header.hashPrevMinorBlock) = none ∧
      c1Block.txList.length < 2 ^ 32 ∧
      get_total_tx_count (put_total_tx_count wStateOff c1Block) c1Block.header.hashVal
        = c1Block.txList.length) :=
  ⟨⟨by decide, c9_missing_parent_count_defaults_to_zero.1 wStateOff [42] (by decide)⟩,
    ⟨by decide, by decide, by decide,
      c9_missing_parent_count_defaults_to_zero.2 wStateOff c1Block (by decide) (by decide)
        (by decide)⟩⟩

/-- C8: subscript access on ShardDbOperator never terminates: the
body of __getitem__ is "return self[key]", an unconditional self
recursion; under every fuel bound the unfolding yields no value, so
no subscript read can return one. -/
theorem c8_getitem_never_terminates :
    ∀ (fuel : Nat) (st : DbState) (key : Bytes),
      shardDbOperatorGetItem fuel st key = none := by
  intro fuel
  induction fuel with
  | zero =>
    intro st key
    rfl
  | succ f ih =>
    intro st key
    simpa [shardDbOperatorGetItem] using ih st key

/-- Counterexample to C5 as stated: a hash present in the minor
header pool for which get_minor_block_header_by_hash returns the
header of the stored block, not the pooled header -- the pool is
never consulted on the minor path. -/
theorem c5_counterexample :
    dictGet c5State.mHeaderPool c5Hash = some c5PooledHeader ∧
    (get_minor_block_header_by_hash c5State c5Hash).1 = some c5StoredHeader ∧
    c5StoredHeader ≠ c5PooledHeader := by decide

/-- C5 amended: get_root_block_header_by_hash is read-through (a
pooled hash is answered from the pool with the state unchanged, for
every store content; a miss loads the store and populates the pool),
but get_minor_block_header_by_hash always consults the store: it
returns the stored block's header (repopulating the pool) regardless
of the pool, and the absent result when the store lacks the block
even if the pool holds a header. -/
theorem c5_read_through_amended :
    (∀ (st : DbState) (h : Bytes) (hdr : RootBlockHeader),
      dictGet st.rHeaderPool h = some hdr →
      get_root_block_header_by_hash st h = (some hdr, st)) ∧
    (∀ (st : DbState) (h : Bytes) (b : RootBlock),
      dictGet st.rHeaderPool h = none →
      dbGet st.db (tagRblock ++ h) = some (Val.rblock b) →
      get_root_block_header_by_hash st h
        = (some b.header,
            { st with rHeaderPool :=
                dictInsert (dictInsert st.rHeaderPool h b.header) h b.header })) ∧
    (∀ (st : DbState) (h : Bytes) (b : MinorBlock),
      dbGet st.db (tagMblock ++ h) = some (Val.mblock b) →
      get_minor_block_header_by_hash st h
        = (some b.header,
            { st with mHeaderPool := dictInsert st.mHeaderPool h b.header })) ∧
    (∀ (st : DbState) (h : Bytes),
      dbGet st.db (tagMblock ++ h) = none →
      get_minor_block_header_by_hash st h = (none, st)) := by
  refine ⟨?_, ?_, ?_, ?_⟩
  · intro st h hdr hd
    unfold get_root_block_header_by_hash
    rw [hd]
  · intro st h b hd hget
    unfold get_root_block_header_by_hash get_root_block_by_hash
    rw [hd, hget]
  · intro st h b hget
    unfold get_minor_block_header_by_hash get_minor_block_by_hash
    rw [hget]
  · intro st h hget
    unfold get_minor_block_header_by_hash get_minor_block_by_hash
    rw [hget]

/-- Witness for the amended C5: the minor header read at c5State
returns the stored header and refreshes the pool. -/
theorem c5_witness :
    dbGet c5State.db (tagMblock ++ c5Hash) = some (Val.mblock c5StoredBlock) ∧
    get_minor_block_header_by_hash c5State c5Hash
      = (some c5StoredBlock.header,
          { c5State with
              mHeaderPool := dictInsert c5State.mHeaderPool c5Hash c5StoredBlock.header }) :=
  ⟨by decide, c5_read_through_amended.2.2.1 c5State c5Hash c5StoredBlock (by decide)⟩

/-- Counterexample to C7 as stated: an empty (zero-length) stored
location record does not trigger the fatal length assertion -- the
"if not result" guard absorbs it and (None, None) is returned,
although its length differs from 8. -/
theorem c7_counterexample :
    dbGet c7State.db (tagTxIndex ++ c7TxHash) = some (Val.bytes []) ∧
    ([] : Bytes).length ≠ 8 ∧
    get_transaction_by_hash c7State c7TxHash = some (none, none) := by decide

/-- C7 amended: get_transaction_by_hash returns (None, None) when no
txindex_ entry exists; it fails with the fatal assertion whenever the
stored record is non-empty and its length is not 8 (an empty record
is absorbed like absence); an 8-byte record decodes a 4-byte
big-endian height and index and the minor block is resolved by height
through the positional index. -/
theorem c7_get_transaction_by_hash_amended :
    (∀ (st : DbState) (txHash : Bytes),
      dbGet st.db (tagTxIndex ++ txHash) = none →
      get_transaction_by_hash st txHash = some (none, none)) ∧
    (∀ (st : DbState) (txHash result : Bytes),
      dbGet st.db (tagTxIndex ++ txHash) = some (Val.bytes result) →
      result ≠ [] → result.length ≠ 8 →
      get_transaction_by_hash st txHash = none) ∧
    (∀ (st : DbState) (txHash result : Bytes),
      dbGet st.db (tagTxIndex ++ txHash) = some (Val.bytes result) →
      result.length = 8 →
      get_transaction_by_hash st txHash
        = some (get_minor_block_by_height st (bytesToNat (result.take 4)),
            some (bytesToNat (result.drop 4)))) := by
  refine ⟨?_, ?_, ?_⟩
  · intro st txHash hd
    unfold get_transaction_by_hash
    rw [hd]
  · intro st txHash result hd hne hlen
    unfold get_transaction_by_hash
    rw [hd]
    simp only []
    rw [if_neg hne, if_neg hlen]
  · intro st txHash result hd hlen
    have hne : result ≠ [] := by
      intro hnil
      rw [hnil] at hlen
      simp at hlen
    unfold get_transaction_by_hash
    rw [hd]
    simp only []
    rw [if_neg hne, if_pos hlen]

/-- Witness for the amended C7: an absent entry, a 3-byte corrupt
record and a well-formed 8-byte record, each at a concrete state. -/
theorem c7_witness :
    (dbGet wStateOff.db (tagTxIndex ++ [9]) = none ∧
      get_transaction_by_hash wStateOff [9] = some (none, none)) ∧
    (dbGet c7StateBad.db (tagTxIndex ++ c7TxHash) = some (Val.bytes [1, 2, 3]) ∧
      ([1, 2, 3] : Bytes) ≠ [] ∧ ([1, 2, 3] : Bytes).length ≠ 8 ∧
      get_transaction_by_hash c7StateBad c7TxHash = none) ∧
    (dbGet c7StateGood.db (tagTxIndex ++ c7TxHash)
        = some (Val.bytes [0, 0, 0, 1, 0, 0, 0, 2]) ∧
      ([0, 0, 0, 1, 0, 0, 0, 2] : Bytes).length = 8 ∧
      get_transaction_by_hash c7StateGood c7TxHash
        = some (get_minor_block_by_height c7StateGood
              (bytesToNat (([0, 0, 0, 1, 0, 0, 0, 2] : Bytes).take 4)),
            some (bytesToNat (([0, 0, 0, 1, 0, 0, 0, 2] : Bytes).drop 4)))) :=
  ⟨⟨by decide, c7_get_transaction_by_hash_amended.1 wStateOff [9] (by decide)⟩,
    ⟨by decide, by decide, by decide,
      c7_get_transaction_by_hash_amended.2.1 c7StateBad c7TxHash [1, 2, 3] (by decide)
        (by decide) (by decide)⟩,
    ⟨by decide, by decide,
      c7_get_transaction_by_hash_amended.2.2 c7StateGood c7TxHash [0, 0, 0, 1, 0, 0, 0, 2]
        (by decide) (by decide)⟩⟩

theorem dictGet_find?_none {K V : Type} [DecidableEq K] {d : List (K × V)} {k : K}
    (h : dictGet d k = none) : List.find? (fun kv => decide (kv.1 = k)) d = none := by
  unfold dictGet at h
  cases hf : List.find? (fun kv => decide (kv.1 = k)) d with
  | none => rfl
  | some kv =>
    rw [hf] at h
    simp at h

theorem heightSetAdd_get (d : List (Nat × List Bytes)) (h0 : Nat) (x : Bytes) (h : Nat) :
    dictGet (heightSetAdd d h0 x) h
      = if h = h0 then some (setInsert ((dictGet d h0).getD []) x) else dictGet d h := by
  unfold heightSetAdd
  cases hd : dictGet d h0 with
  | some s =>
    simp only []
    by_cases hh : h = h0
    · subst hh
      rw [dictGet_dictInsert_self, if_pos rfl]
      simp
    · rw [dictGet_dictInsert_ne _ _ (fun hc => hh hc.symm), if_neg hh]
  | none =>
    simp only []
    by_cases hh : h = h0
    · subst hh
      unfold dictGet
      rw [List.find?_append, dictGet_find?_none hd]
      simp [List.find?]
    · unfold dictGet
      rw [List.find?_append, if_neg hh]
      have hs : List.find? (fun kv => decide (kv.1 = h)) [(h0, setInsert [] x)] = none := by
        rw [List.find?_eq_none]
        intro kv hkv
        simp only [List.mem_singleton] at hkv
        subst hkv
        simp only [decide_eq_true_eq]
        intro hc
        exact hh hc.symm
      rw [hs]
      cases hf : List.find? (fun kv => decide (kv.1 = h)) d <;> rfl

theorem setInsert_nodup {s : List Bytes} (x : Bytes) (h : s.Nodup) :
    (setInsert s x).Nodup := by
  unfold setInsert
  by_cases hx : x ∈ s
  · rw [if_pos hx]
    exact h
  · rw [if_neg hx]
    simp [List.nodup_append, h, hx]

theorem setInsert_toFinset (s : List Bytes) (x : Bytes) :
    (setInsert s x).toFinset = insert x s.toFinset := by
  unfold setInsert
  by_cases hx : x ∈ s
  · rw [if_pos hx]
    exact (Finset.insert_eq_self.mpr (List.mem_toFinset.mpr hx)).symm
  · rw [if_neg hx]
    simp [List.toFinset_append, Finset.union_comm, Finset.insert_eq]

theorem hist_put_heightDict (st : DbState) (tx : Transaction) (bh i : Nat) :
    (put_transaction_history_index st tx bh i).heightToMinorBlockHashes
      = st.heightToMinorBlockHashes := by
  unfold put_transaction_history_index update_transaction_history_index
  by_cases hflag : st.enableTxHistory = false
  · rw [if_pos hflag]
  · rw [if_neg hflag]
    simp only []
    split <;> rfl

theorem hist_remove_heightDict (st : DbState) (tx : Transaction) (bh i : Nat) :
    (remove_transaction_history_index st tx bh i).heightToMinorBlockHashes
      = st.heightToMinorBlockHashes := by
  unfold remove_transaction_history_index update_transaction_history_index
  by_cases hflag : st.enableTxHistory = false
  · rw [if_pos hflag]
  · rw [if_neg hflag]
    simp only []
    split <;> rfl

theorem put_minor_block_heightDict (st : DbState) (b : MinorBlock)
    (xs : List CrossShardDeposit) :
    (put_minor_block st b xs).heightToMinorBlockHashes
      = heightSetAdd st.heightToMinorBlockHashes b.header.height b.header.hashVal := by
  simp only [put_minor_block, put_total_tx_count,
    put_confirmed_cross_shard_transaction_deposit_list]
  split <;> rfl

theorem applyOp_heightDict (st : DbState) (op : Op) :
    (applyOp st op).heightToMinorBlockHashes
      = match op with
        | Op.putMinorBlockOp b _ =>
          heightSetAdd st.heightToMinorBlockHashes b.header.height b.header.hashVal
        | _ => st.heightToMinorBlockHashes := by
  cases op with
  | putMinorBlockOp b xs => exact put_minor_block_heightDict st b xs
  | putMinorBlockIndexOp b => rfl
  | removeMinorBlockIndexOp b => rfl
  | putRootBlockOp b r => rfl
  | putTransactionIndexOp tx h i =>
    simp only [applyOp, put_transaction_index]
    rw [hist_put_heightDict]
  | removeTransactionIndexOp tx h i =>
    simp only [applyOp, remove_transaction_index]
    rw [hist_remove_heightDict]
  | putMinorBlockXshardTxListOp h l => rfl

theorem minorHashesPutAt_cons_put (h : Nat) (b : MinorBlock) (xs : List CrossShardDeposit)
    (rest : List Op) :
    minorHashesPutAt h (Op.putMinorBlockOp b xs :: rest)
      = if b.header.height = h then b.header.hashVal :: minorHashesPutAt h rest
        else minorHashesPutAt h rest := rfl

theorem minorHashesPutAt_cons_skip (h : Nat) (op : Op) (rest : List Op)
    (hop : ∀ (b : MinorBlock) (xs : List CrossShardDeposit), op ≠ Op.putMinorBlockOp b xs) :
    minorHashesPutAt h (op :: rest) = minorHashesPutAt h rest := by
  cases op
  case putMinorBlockOp b xs => exact absurd rfl (hop b xs)
  all_goals rfl

theorem c6_trace_invariant (h : Nat) :
    ∀ (ops : List Op) (st : DbState),
      ((dictGet st.heightToMinorBlockHashes h).getD []).Nodup →
      ((dictGet ((ops.foldl applyOp st).heightToMinorBlockHashes) h).getD []).Nodup ∧
      ((dictGet ((ops.foldl applyOp st).heightToMinorBlockHashes) h).getD []).toFinset
        = ((dictGet st.heightToMinorBlockHashes h).getD []).toFinset
          ∪ (minorHashesPutAt h ops).toFinset := by
  intro ops
  induction ops with
  | nil =>
    intro st hnd
    simp [minorHashesPutAt, hnd]
  | cons op rest ih =>
    intro st hnd
    rw [List.foldl_cons]
    cases op with
    | putMinorBlockOp b xs =>
      have hnd' : ((dictGet ((applyOp st (Op.putMinorBlockOp b xs)).heightToMinorBlockHashes)
          h).getD []).Nodup := by
        simp only [applyOp_heightDict, heightSetAdd_get]
        by_cases hbh : h = b.header.height
        · rw [if_pos hbh]
          simp only [Option.getD_some]
          subst hbh
          exact setInsert_nodup _ hnd
        · rw [if_neg hbh]
          exact hnd
      have hone := ih (applyOp st (Op.putMinorBlockOp b xs)) hnd'
      simp only [applyOp_heightDict, heightSetAdd_get] at hone
      by_cases hbh : h = b.header.height
      · rw [if_pos hbh] at hone
        simp only [Option.getD_some] at hone
        subst hbh
        refine ⟨hone.1, ?_⟩
        rw [hone.2, setInsert_toFinset]
        rw [minorHashesPutAt_cons_put, if_pos rfl]
        simp [List.toFinset_cons, Finset.insert_union, Finset.union_insert]
      · rw [if_neg hbh] at hone
        refine ⟨hone.1, ?_⟩
        rw [hone.2]
        rw [minorHashesPutAt_cons_put, if_neg (fun hc => hbh hc.symm)]
    | putMinorBlockIndexOp b =>
      have hone := ih (applyOp st (Op.putMinorBlockIndexOp b))
        (by simp only [applyOp_heightDict]; exact hnd)
      simp only [applyOp_heightDict] at hone
      rw [minorHashesPutAt_cons_skip h _ rest (fun bb xxs hcc => Op.noConfusion hcc)]
      exact hone
    | removeMinorBlockIndexOp b =>
      have hone := ih (applyOp st (Op.removeMinorBlockIndexOp b))
        (by simp only [applyOp_heightDict]; exact hnd)
      simp only [applyOp_heightDict] at hone
      rw [minorHashesPutAt_cons_skip h _ rest (fun bb xxs hcc => Op.noConfusion hcc)]
      exact hone
    | putRootBlockOp b r =>
      have hone := ih (applyOp st (Op.putRootBlockOp b r))
        (by simp only [applyOp_heightDict]; exact hnd)
      simp only [applyOp_heightDict] at hone
      rw [minorHashesPutAt_cons_skip h _ rest (fun bb xxs hcc => Op.noConfusion hcc)]
      exact hone
    | putTransactionIndexOp tx bh i =>
      have hone := ih (applyOp st (Op.putTransactionIndexOp tx bh i))
        (by simp only [applyOp_heightDict]; exact hnd)
      simp only [applyOp_heightDict] at hone
      rw [minorHashesPutAt_cons_skip h _ rest (fun bb xxs hcc => Op.noConfusion hcc)]
      exact hone
    | removeTransactionIndexOp tx bh i =>
      have hone := ih (applyOp st (Op.removeTransactionIndexOp tx bh i))
        (by simp only [applyOp_heightDict]; exact hnd)
      simp only [applyOp_heightDict] at hone
      rw [minorHashesPutAt_cons_skip h _ rest (fun bb xxs hcc => Op.noConfusion hcc)]
      exact hone
    | putMinorBlockXshardTxListOp hx l =>
      have hone := ih (applyOp st (Op.putMinorBlockXshardTxListOp hx l))
        (by simp only [applyOp_heightDict]; exact hnd)
      simp only [applyOp_heightDict] at hone
      rw [minorHashesPutAt_cons_skip h _ rest (fun bb xxs hcc => Op.noConfusion hcc)]
      exact hone

/-- C6: over any trace of operator calls starting from a fresh
operator, get_block_count_by_height(h) equals the number of distinct
hashes of minor blocks ever stored at height h by put_minor_block;
no operation removes entries from the per-height hash set, and in
particular remove_minor_block_index leaves it untouched. -/
theorem c6_height_hash_set_monotone :
    (∀ (db : List (Bytes × Val)) (flag : Bool) (branch : Nat → Bool)
        (maxR maxM gen : Nat) (ops : List Op) (h : Nat),
      (get_block_count_by_height
          (ops.foldl applyOp (mkOperator db flag branch maxR maxM gen)) h).1
        = (minorHashesPutAt h ops).toFinset.card) ∧
    (∀ (st : DbState) (b : MinorBlock),
      (remove_minor_block_index st b).heightToMinorBlockHashes
        = st.heightToMinorBlockHashes) := by
  constructor
  · intro db flag branch maxR maxM gen ops h
    have hcnt : ∀ (st : DbState),
        (get_block_count_by_height st h).1
          = ((dictGet st.heightToMinorBlockHashes h).getD []).length := by
      intro st
      unfold get_block_count_by_height
      cases hd : dictGet st.heightToMinorBlockHashes h <;> simp [hd]
    have hinit :
        ((dictGet ((mkOperator db flag branch maxR maxM gen).heightToMinorBlockHashes)
          h).getD []) = [] := rfl
    obtain ⟨hn, hf⟩ := c6_trace_invariant h ops (mkOperator db flag branch maxR maxM gen)
      (by rw [hinit]; exact List.nodup_nil)
    rw [hcnt, ← List.toFinset_card_of_nodup hn, hf, hinit]
    simp
  · intro st b
    rfl

theorem hChain_inj {i j : Nat} (hi : i < 2 ^ 32) (hj : j < 2 ^ 32)
    (h : hChain i = hChain j) : i = j := by
  have h232 : (2 : Nat) ^ 32 = 256 ^ 4 := by norm_num
  unfold hChain at h
  exact (natToBytes_inj (by rw [← h232]; exact hi) (by rw [← h232]; exact hj)).mp h

theorem chainDb_succ (n : Nat) :
    chainDb (n + 1) = chainDb n ++ [(tagMblock ++ hChain n, Val.mblock (chainBlock n))] := by
  unfold chainDb
  rw [List.range_succ, List.map_append]
  rfl

theorem dbGet_chainDb {n j : Nat} (hn : n ≤ 2 ^ 32) (hj : j < n) :
    dbGet (chainDb n) (tagMblock ++ hChain j) = some (Val.mblock (chainBlock j)) := by
  induction n with
  | zero => omega
  | succ m ih =>
    rw [chainDb_succ]
    unfold dbGet
    rw [List.find?_append]
    by_cases hjm : j < m
    · have hh := ih (by omega) hjm
      unfold dbGet at hh
      cases hf : List.find? (fun kv => decide (kv.1 = tagMblock ++ hChain j)) (chainDb m) with
      | none =>
        rw [hf] at hh
        simp at hh
      | some kv =>
        rw [hf] at hh
        simp only [Option.or]
        exact hh
    · have hje : j = m := by omega
      subst hje
      have hnone : List.find? (fun kv => decide (kv.1 = tagMblock ++ hChain j))
          (chainDb j) = none := by
        rw [List.find?_eq_none]
        intro kv hkv
        unfold chainDb at hkv
        rw [List.mem_map] at hkv
        obtain ⟨i, hi, rfl⟩ := hkv
        rw [List.mem_range] at hi
        simp only [decide_eq_true_eq]
        intro hc
        have hc2 : hChain i = hChain j := List.append_cancel_left hc
        have := hChain_inj (by omega) (by omega) hc2
        omega
      rw [hnone]
      simp [List.find?, Option.or]

theorem hdrPoolDown_length (n j : Nat) : (hdrPoolDown n j).length = n - j := by
  unfold hdrPoolDown
  rw [List.length_map, List.length_reverse, List.length_range']

theorem metaPoolDown_length (n j : Nat) : (metaPoolDown n j).length = n - j := by
  unfold metaPoolDown
  rw [List.length_map, List.length_reverse, List.length_range']

theorem hdrPoolDown_succ {n j : Nat} (hj : j < n) :
    hdrPoolDown n (j + 1) ++ [(hChain j, (chainBlock j).header)] = hdrPoolDown n j := by
  unfold hdrPoolDown
  rw [show n - j = (n - (j + 1)) + 1 by omega, List.range'_succ, List.reverse_cons,
    List.map_append]
  rfl

theorem metaPoolDown_succ {n j : Nat} (hj : j < n) :
    metaPoolDown n (j + 1) ++ [(hChain j, (chainBlock j).meta)] = metaPoolDown n j := by
  unfold metaPoolDown
  rw [show n - j = (n - (j + 1)) + 1 by omega, List.range'_succ, List.reverse_cons,
    List.map_append]
  rfl

theorem hdrPoolDown_get_none {n j : Nat} (hn : n ≤ 2 ^ 32) (hj : j < n) :
    dictGet (hdrPoolDown n (j + 1)) (hChain j) = none := by
  have hnone : List.find? (fun kv => decide (kv.1 = hChain j)) (hdrPoolDown n (j + 1))
      = none := by
    rw [List.find?_eq_none]
    intro kv hkv
    unfold hdrPoolDown at hkv
    rw [List.mem_map] at hkv
    obtain ⟨i, hi, rfl⟩ := hkv
    rw [List.mem_reverse, List.mem_range'_1] at hi
    simp only [decide_eq_true_eq]
    intro hc
    have := hChain_inj (by omega) (by omega) hc
    omega
  unfold dictGet
  rw [hnone]

theorem metaPoolDown_get_none {n j : Nat} (hn : n ≤ 2 ^ 32) (hj : j < n) :
    dictGet (metaPoolDown n (j + 1)) (hChain j) = none := by
  have hnone : List.find? (fun kv => decide (kv.1 = hChain j)) (metaPoolDown n (j + 1))
      = none := by
    rw [List.find?_eq_none]
    intro kv hkv
    unfold metaPoolDown at hkv
    rw [List.mem_map] at hkv
    obtain ⟨i, hi, rfl⟩ := hkv
    rw [List.mem_reverse, List.mem_range'_1] at hi
    simp only [decide_eq_true_eq]
    intro hc
    have := hChain_inj (by omega) (by omega) hc
    omega
  unfold dictGet
  rw [hnone]

theorem recoverRootLoop_zero_budget (fuel : Nat) (hf : 1 ≤ fuel) (st : DbState)
    (hmax : st.maxRootBlocksInMemory = 0) (rHash : Bytes) :
    recoverRootLoop fuel st rHash = some st := by
  cases fuel with
  | zero => omega
  | succ f =>
    simp only [recoverRootLoop]
    rw [if_neg]
    rw [hmax]
    omega

theorem recoverMinor_chain (n m : Nat) (hm : 1 ≤ m) (hmn : m ≤ n) (hn : n ≤ 2 ^ 32) :
    ∀ j, j < n → n - m ≤ j + 1 → ∀ fuel, j + 1 ≤ fuel → ∀ st : DbState,
      st.db = chainDb n → st.maxMinorBlocksInMemory = m →
      st.mHeaderPool = hdrPoolDown n (j + 1) → st.mMetaPool = metaPoolDown n (j + 1) →
      recoverMinorLoop fuel st (hChain j)
        = some { st with
            mHeaderPool := hdrPoolDown n (n - m)
            mMetaPool := metaPoolDown n (n - m) } := by
  intro j
  induction j with
  | zero =>
    intro hjn hjm fuel hfuel st hdb hmax hpool hmeta
    cases fuel with
    | zero => omega
    | succ f =>
      simp only [recoverMinorLoop]
      rw [hpool, hmeta, hmax, hdb, hdrPoolDown_length, dbGet_chainDb hn hjn]
      by_cases hc : n - (0 + 1) < m
      · rw [if_pos hc]
        simp only []
        rw [if_pos (show (chainBlock 0).header.height ≤ 0 from Nat.le_refl 0)]
        rw [dictInsert_fresh _ _ (hdrPoolDown_get_none hn hjn),
          dictInsert_fresh _ _ (metaPoolDown_get_none hn hjn),
          hdrPoolDown_succ hjn, metaPoolDown_succ hjn,
          show n - m = 0 by omega]
      · rw [if_neg hc]
        rw [show n - m = 0 + 1 by omega, ← hpool, ← hmeta, ← hdb, ← hmax]
  | succ j ih =>
    intro hjn hjm fuel hfuel st hdb hmax hpool hmeta
    cases fuel with
    | zero => omega
    | succ f =>
      simp only [recoverMinorLoop]
      rw [hpool, hmeta, hmax, hdb, hdrPoolDown_length, dbGet_chainDb hn hjn]
      by_cases hc : n - (j + 1 + 1) < m
      · rw [if_pos hc]
        simp only []
        rw [if_neg (show ¬ (chainBlock (j + 1)).header.height ≤ 0 by simp [chainBlock])]
        have hprev : (chainBlock (j + 1)).header.hashPrevMinorBlock = hChain j := by
          simp [chainBlock]
        rw [hprev]
        rw [dictInsert_fresh _ _ (hdrPoolDown_get_none hn hjn),
          dictInsert_fresh _ _ (metaPoolDown_get_none hn hjn),
          hdrPoolDown_succ hjn, metaPoolDown_succ hjn]
        exact ih (by omega) (by omega) f (by omega) _ rfl rfl rfl rfl
      · rw [if_neg hc]
        rw [show n - m = j + 1 + 1 by omega, ← hpool, ← hmeta, ← hdb, ← hmax]

/-- C4: recover_state walks the minor chain backward from the given
head, caching each block's header and metadata and following
hash_prev_minor_block, and stops exactly when the pool reaches
max_minor_blocks_in_memory or height 0: over a stored linear chain of
n minor blocks (heights 0..n-1) with budget m ≤ n it populates the
pools with exactly the m most recent blocks, n-1 down to n-m. -/
theorem c4_recover_state_populates_most_recent (n m : Nat)
    (hm : 1 ≤ m) (hmn : m ≤ n) (hn : n ≤ 2 ^ 32) :
    recover_state n (chainState n m) chainRootHeader (chainBlock (n - 1)).header
      = some { chainState n m with
          mHeaderPool := hdrPoolDown n (n - m)
          mMetaPool := metaPoolDown n (n - m) } ∧
    (hdrPoolDown n (n - m)).length = m ∧ (metaPoolDown n (n - m)).length = m := by
  refine ⟨?_, ?_, ?_⟩
  · unfold recover_state
    rw [recoverRootLoop_zero_budget n (by omega) _ rfl]
    have hhash : (chainBlock (n - 1)).header.hashVal = hChain (n - 1) := rfl
    rw [hhash]
    exact recoverMinor_chain n m hm hmn hn (n - 1) (by omega) (by omega) n (by omega)
      (chainState n m) rfl rfl
      (by rw [show n - 1 + 1 = n by omega]; simp [chainState, mkOperator, hdrPoolDown])
      (by rw [show n - 1 + 1 = n by omega]; simp [chainState, mkOperator, metaPoolDown])
  · rw [hdrPoolDown_length]
    omega
  · rw [metaPoolDown_length]
    omega

/-- Witness for C4: the 100-block chain with a 10-block budget caches
exactly blocks 99 down to 90. -/
theorem c4_witness :
    1 ≤ 10 ∧ 10 ≤ 100 ∧ 100 ≤ 2 ^ 32 ∧
    (recover_state 100 (chainState 100 10) chainRootHeader (chainBlock (100 - 1)).header
        = some { chainState 100 10 with
            mHeaderPool := hdrPoolDown 100 (100 - 10)
            mMetaPool := metaPoolDown 100 (100 - 10) } ∧
      (hdrPoolDown 100 (100 - 10)).length = 10 ∧
      (metaPoolDown 100 (100 - 10)).length = 10) :=
  ⟨by decide, by decide, by decide,
    c4_recover_state_populates_most_recent 100 10 (by decide) (by decide) (by decide)⟩
